import Mathlib

/-!
# Readerly feed-ingestion subsystem: a shallow embedding

This file embeds the feed fetcher of the Readerly repository
(`backend/src/queue/fetcher.ts`): the URL canonicalizer `canonicalUrl`,
the backoff computation inside `performFetch`, the feed-document
normalization and per-entry dedup loop of `processAtomOrRss`, the
`performFetch` worker itself, and the interval scheduler tick.

Platform pieces that the source calls but does not define (the WHATWG
`URL` class, `new Date(...)` parsing, `crypto` SHA-256, `fast-xml-parser`)
are modelled as follows: the `URL` class is modelled concretely for
`http(s)://` URLs by `Readerly.parseURL` / `Readerly.URLRec.serialize`
(percent-encoding, default-port removal, `.`/`..` segment resolution,
case normalization and non-http schemes are out of the modelled subset;
a string outside the subset counts as unparsable and is returned
unchanged, mirroring the source's `catch` branch); date parsing, hashing
and XML parsing are universally quantified function parameters collected
in `Readerly.Env`, so every theorem below holds for any choice of those
platform functions.
-/

namespace Readerly

/-! ## Backoff computation (fetcher.ts, `performFetch`, error branch) -/

/-- `const nextCount = Math.min(prev + 1, 10)` -/
def nextErrorCount (prev : Nat) : Nat := min (prev + 1) 10

/-- `const capMs = 6 * 60 * 60 * 1000` — six hours in milliseconds. -/
def capMs : Nat := 6 * 60 * 60 * 1000

/-- The backoff policy as a pure function of the (already incremented)
consecutive-failure count: `Math.min(Math.pow(2, min(n,10)) * 60_000, capMs)`.
In the source the clamp `min n 10` is applied when `nextCount` is formed. -/
def backoffPreJitterMs (failureCount : Nat) : Nat :=
  min (2 ^ (min failureCount 10) * 60000) capMs

/-- Total backoff delay: pre-jitter delay plus `Math.floor(Math.random() * 30_000)`,
the jitter being a parameter in `[0, 30000)`. -/
def backoffTotalMs (failureCount jitter : Nat) : Nat :=
  backoffPreJitterMs failureCount + jitter

/-! ## URL canonicalizer (fetcher.ts, `canonicalUrl`)

The WHATWG `URL` value is modelled by `URLRec`; parsing and serialization
are modelled for the `http://` / `https://` subset described in the file
header. -/

/-- The fixed allow-list of tracking query parameters removed by
`canonicalUrl` (`dropParams` in the source). -/
def dropParams : List String :=
  ["utm_source", "utm_medium", "utm_campaign", "utm_term", "utm_content",
   "gclid", "fbclid", "spm", "igshid", "mc_eid"]

/-- Model of a parsed WHATWG `URL` for http(s) URLs. `secure = true` means
scheme `https`. `host` covers everything between `://` and the first of
`/`, `?`, `#` (userinfo and port included verbatim). `fragment = some f`
corresponds to a `#` being present with `f` the text after it. -/
structure URLRec where
  secure : Bool
  host : String
  pathname : String
  query : List (String × String)
  fragment : Option String
  deriving Repr, DecidableEq

/-- Split a character list at the first character satisfying `p`:
returns the part before it and the remainder starting with it. -/
def takeUntil (p : Char → Bool) (l : List Char) : List Char × List Char :=
  (l.takeWhile (fun c => !p c), l.dropWhile (fun c => !p c))

/-- Split a query string on `&`, as `URLSearchParams` does before
skipping empty segments. -/
def splitAmp : List Char → List (List Char)
  | [] => [[]]
  | c :: t =>
    if c = '&' then [] :: splitAmp t
    else
      match splitAmp t with
      | [] => [[c]]
      | h :: r => (c :: h) :: r

/-- One `name=value` query segment: the name is everything before the
first `=`, the value everything after it (`""` when there is no `=`). -/
def parsePair (cs : List Char) : String × String :=
  let s := takeUntil (fun c => c = '=') cs
  (⟨s.1⟩, match s.2 with
          | [] => ""
          | _ :: v => ⟨v⟩)

/-- `URLSearchParams` parsing of the text after `?`: split on `&`, skip
empty segments, split each segment at its first `=`. -/
def parseQuery (cs : List Char) : List (String × String) :=
  ((splitAmp cs).filter (fun s => s ≠ [])).map parsePair

/-- Parse the part after the scheme: host up to `/`, `?` or `#` (must be
non-empty), then pathname, then optional query, then optional fragment.
The fragment starts at the first `#`; an absent path serializes as `/`. -/
def parseAfterScheme (secure : Bool) (l : List Char) : Option URLRec :=
  let h := takeUntil (fun c => c = '/' || c = '?' || c = '#') l
  if h.1 = [] then none
  else
    let f := takeUntil (fun c => c = '#') h.2
    let fragment : Option String :=
      match f.2 with
      | [] => none
      | _ :: fr => some ⟨fr⟩
    let q := takeUntil (fun c => c = '?') f.1
    let query : List (String × String) :=
      match q.2 with
      | [] => []
      | _ :: qs => parseQuery qs
    let pathname : String := if q.1 = [] then "/" else ⟨q.1⟩
    some { secure := secure, host := ⟨h.1⟩, pathname := pathname,
           query := query, fragment := fragment }

/-- Model of `new URL(s)` on the http(s) subset: `none` models the
constructor throwing. -/
def parseURL (s : String) : Option URLRec :=
  if ['h', 't', 't', 'p', 's', ':', '/', '/'].isPrefixOf s.data then
    parseAfterScheme true (s.data.drop 8)
  else if ['h', 't', 't', 'p', ':', '/', '/'].isPrefixOf s.data then
    parseAfterScheme false (s.data.drop 7)
  else none

/-- Join query segments with `&`. -/
def joinAmp : List (List Char) → List Char
  | [] => []
  | [x] => x
  | x :: xs => x ++ '&' :: joinAmp xs

/-- `URLSearchParams.toString()` on the modelled subset (percent-encoding
omitted): `name=value` pairs joined by `&`. -/
def serializeQuery (q : List (String × String)) : String :=
  ⟨joinAmp (q.map (fun p => p.1.data ++ '=' :: p.2.data))⟩

/-- Model of `URL.toString()` on the http(s) subset. -/
def URLRec.serialize (r : URLRec) : String :=
  (if r.secure then "https://" else "http://") ++ r.host ++ r.pathname ++
    (if r.query = [] then "" else "?" ++ serializeQuery r.query) ++
    (match r.fragment with
     | none => ""
     | some f => "#" ++ f)

/-- `pathname.endsWith("/amp")`. -/
def pathEndsAmp (s : String) : Bool := ['/', 'a', 'm', 'p'].isSuffixOf s.data

/-- `pathname.slice(0, -4) || "/"`: drop the final `/amp`; an emptied
path becomes `/` (also what the `pathname` setter yields for `""`). -/
def dropAmp (s : String) : String :=
  let t := s.data.take (s.data.length - 4)
  if t = [] then "/" else ⟨t⟩

/-- `pathname.replace(/\/+$/, "")`: strip every trailing slash. -/
def rstripSlashes (s : String) : String :=
  ⟨(s.data.reverse.dropWhile (fun c => c = '/')).reverse⟩

/-- `pathname.endsWith("/")`. -/
def pathEndsSlash (s : String) : Bool := s.data.getLast? = some '/'

/-- The two path rewrites of `canonicalUrl`, in source order: collapse a
trailing `/amp` segment, then strip trailing slashes from non-root paths
(the WHATWG `pathname` setter turns a fully stripped path into `/`). -/
def canonPath (p : String) : String :=
  let p1 := if pathEndsAmp p then dropAmp p else p
  if p1.length > 1 && pathEndsSlash p1 then
    let p2 := rstripSlashes p1
    if p2 = "" then "/" else p2
  else p1

/-- The mutations `canonicalUrl` performs on a successfully parsed URL:
drop the fragment, delete the tracking parameters (an emptied query
serializes to nothing), rewrite the path. -/
def canonRec (r : URLRec) : URLRec :=
  { secure := r.secure
    host := r.host
    pathname := canonPath r.pathname
    query := r.query.filter (fun p => ¬ p.1 ∈ dropParams)
    fragment := none }

/-- Characters contributed to a serialized URL by the query component. -/
def qdata (query : List (String × String)) : List Char :=
  if query = [] then [] else '?' :: (serializeQuery query).data

/-- Characters contributed to a serialized URL by the fragment component. -/
def fdata : Option String → List Char
  | none => []
  | some f => '#' :: f.data

/-- `canonicalUrl` on a present, non-empty string: parse, canonicalize,
serialize; an unparsable input is returned unchanged (the `catch` arm). -/
def canonicalUrlStr (s : String) : String :=
  match parseURL s with
  | some r => (canonRec r).serialize
  | none => s

/-- `function canonicalUrl(input?: string): string | undefined` —
`if (!input) return undefined` treats both `undefined` and `""` as
absent. -/
def canonicalUrl : Option String → Option String
  | none => none
  | some s => if s = "" then none else some (canonicalUrlStr s)

/-! ## XML value model and `text()` (fetcher.ts)

`fast-xml-parser` output is modelled by `JVal` (numbers restricted to
integers; JS `String(number)` on them agrees with `Int` formatting). -/

/-- A parsed XML/JSON value as the source's dynamic probing sees it.
`nil` stands for both `undefined` and `null`. -/
inductive JVal where
  | str (s : String)
  | num (n : Int)
  | bool (b : Bool)
  | nil
  | obj (fields : List (String × JVal))
  | arr (elems : List JVal)

/-- JS property access `v["k"]`: a field lookup on objects, `undefined`
on everything else (string/number primitives and arrays have none of the
probed properties). -/
def JVal.getProp : JVal → String → JVal
  | .obj fields, k =>
    match fields.find? (fun f => f.1 = k) with
    | some f => f.2
    | none => .nil
  | _, _ => .nil

/-- JS strict equality of a value against a string literal. -/
def JVal.isStr : JVal → String → Bool
  | .str t, s => t = s
  | _, _ => false

/-- The candidate loop in `text()`: the first candidate that is a string
with non-empty trim is returned (untrimmed). -/
def firstTextCandidate : List JVal → Option String
  | [] => none
  | .str s :: rest => if s.trim ≠ "" then some s else firstTextCandidate rest
  | _ :: rest => firstTextCandidate rest

/-- `text(val)` (fetcher.ts): `null`/`undefined` → absent; strings kept
as-is (`""` included); numbers and booleans stringified; objects probed
through the fixed candidate keys; anything else (arrays included) is
absent — never the `"[object Object]"` placeholder. -/
def jsText : JVal → Option String
  | .nil => none
  | .str s => some s
  | .num n => some (toString n)
  | .bool b => some (if b then "true" else "false")
  | .obj fields =>
    firstTextCandidate
      (["#text", "_", "value", "content", "$t", "@_href", "href", "url"].map
        (fun k => JVal.getProp (.obj fields) k))
  | .arr _ => none

/-- One raw `<item>`/`<entry>` (the source's `ParsedItem`): fields that
the source feeds through `text()` or property probing are `JVal`; fields
it consumes directly under its string typing are `Option String`. -/
structure RawEntry where
  guid : JVal
  id : JVal
  title : JVal
  link : JVal
  pubDate : Option String
  published : Option String
  updated : Option String
  description : Option String
  content : Option String
  contentEncoded : Option String

/-- `item?: ParsedItem[] | ParsedItem` before `toArray`. -/
inductive ItemsVal where
  | absent
  | one (e : RawEntry)
  | many (es : List RawEntry)

/-- `toArray` (fetcher.ts): falsy → `[]`, array kept, single wrapped. -/
def ItemsVal.toArray : ItemsVal → List RawEntry
  | .absent => []
  | .one e => [e]
  | .many es => es

/-- The `rss.channel` shape: document title node plus items. -/
structure RssChannel where
  title : JVal
  item : ItemsVal

/-- The Atom `feed` shape. -/
structure AtomFeed where
  title : JVal
  entry : ItemsVal

/-- The parser output as `processAtomOrRss` probes it: `rssChannel` is
`some` exactly when `obj.rss?.channel` is truthy, `feed` when `obj.feed`
is. -/
structure ParsedDoc where
  rssChannel : Option RssChannel
  feed : Option AtomFeed

/-- Platform functions the fetcher calls but the repository does not
define; every theorem is quantified over an arbitrary environment.
`jsDate` models `new Date(s).getTime()` guarded by validity; `sha256hex`
models `createHash("sha256")` fed the concatenated `update` calls and
read back with `digest("hex")`; `toISOString` models
`Date.prototype.toISOString`; `xmlParse` models
`new XMLParser({...}).parse` (total: the parser is configured without
validation and degrades instead of raising). -/
structure Env where
  jsDate : String → Option Int
  sha256hex : String → String
  toISOString : Int → String
  xmlParse : String → ParsedDoc

/-- JS `a || b` on optional strings: `""` is falsy and falls through. -/
def jsOr (a b : Option String) : Option String :=
  match a with
  | some s => if s = "" then b else some s
  | none => b

/-- `/^https?:\/\//i.test(s)`. -/
def isHttpUrlish (s : String) : Bool :=
  let l := s.data.map Char.toLower
  ['h', 't', 't', 'p', ':', '/', '/'].isPrefixOf l ||
    ['h', 't', 't', 'p', 's', ':', '/', '/'].isPrefixOf l

/-- `parseDate` (fetcher.ts): absent or empty input stays absent; an
invalid date (`isNaN(d.getTime())`) stays absent. -/
def parseDate (env : Env) : Option String → Option Int
  | none => none
  | some s => if s = "" then none else env.jsDate s

/-- `hashGuidFallback` (fetcher.ts): SHA-256 over `feedId` followed by
the fields that are present (JS skips falsy `url`/`title`, which equals
appending the empty string). -/
def hashGuidFallback (env : Env) (feedId : String) (url title : Option String)
    (publishedAt : Option Int) : String :=
  env.sha256hex (feedId ++ url.getD "" ++ title.getD "" ++
    (publishedAt.map env.toISOString).getD "")

/-- The normalized per-entry values of fetcher.ts lines 702–736. -/
structure NormEntry where
  guidRaw : Option String
  guid : Option String
  title : Option String
  url : Option String
  urlCanon : Option String
  pub : Option Int
  html : Option String

/-- Lines 702–736: guid normalization (canonicalize URL-ish guids, drop
`"[object Object]"`), Atom/RSS link resolution, double canonicalization
of the link, date resolution (`||` over always-truthy `Date`s equals
first-present), and `pickContent` (whose `text` component is always
`undefined` in the source). -/
def normalizeEntry (env : Env) (raw : RawEntry) : NormEntry :=
  let guidRaw := (jsText raw.guid).or (jsText raw.id)
  let guidUrlish : Option String :=
    match guidRaw with
    | some g => if g ≠ "" && isHttpUrlish g then canonicalUrl (some g) else none
    | none => none
  let guid :=
    guidUrlish.or
      (match guidRaw with
       | some g => if g ≠ "" && g ≠ "[object Object]" then some g else none
       | none => none)
  let url : Option String :=
    match raw.link with
    | .arr elems =>
      let alt := elems.find? (fun l => (l.getProp "@_rel").isStr "alternate")
      jsOr (jsText (match alt with | some a => a.getProp "@_href" | none => .nil))
        (jsOr (jsText ((elems.head?.getD .nil).getProp "@_href"))
          (jsText (elems.head?.getD .nil)))
    | v => jsOr (jsText v) (jsText (v.getProp "@_href"))
  let url := match canonicalUrl url with | some u => some u | none => url
  let pub := (parseDate env raw.pubDate).or
    ((parseDate env raw.published).or (parseDate env raw.updated))
  let html := raw.contentEncoded.or (raw.content.or raw.description)
  let urlCanon := match canonicalUrl url with | some u => some u | none => url
  { guidRaw := guidRaw, guid := guid, title := jsText raw.title,
    url := url, urlCanon := urlCanon, pub := pub, html := html }

/-- `Array.from(new Set(...))`: deduplicate keeping first occurrences. -/
def dedupAux : List String → List String → List String
  | _, [] => []
  | seen, x :: xs =>
    if x ∈ seen then dedupAux seen xs else x :: dedupAux (x :: seen) xs

/-- Lines 739–748: the identity-candidate list — canonicalized guid, raw
guid, canonicalized URL, original URL — with `.filter(Boolean)` dropping
absent and empty strings, then set-deduplication. -/
def candidatesOf (n : NormEntry) : List String :=
  dedupAux []
    (([n.guid, n.guidRaw, n.urlCanon, n.url].filterMap id).filter (fun s => s ≠ ""))

/-- One stored `Item` row, restricted to the columns the dedup engine
reads or writes (in the Prisma schema `guid` is a nullable column; rows
written by the dedup engine always carry a string, so it is modelled as
`String` here). -/
structure Item where
  feedId : String
  guid : String
  title : String
  url : Option String
  contentHtml : Option String
  contentText : Option String
  publishedAt : Option Int
  deriving Repr, DecidableEq

/-- The item table, in row order (Prisma `findFirst` picks the first
matching row of this order). -/
abbrev Store := List Item

/-- The update payload shared by lines 757–768 and 787–796: a Prisma
field set to `undefined` (an absent normalized value) leaves the column
unchanged; `guid` and `feedId` are never part of the payload. The
`contentText` column is never changed because `pickContent`'s `text` is
always `undefined`. -/
def updateItemMeta (n : NormEntry) (r : Item) : Item :=
  { r with
    url := match n.urlCanon.or n.url with | some u => some u | none => r.url
    title := n.title.getD r.title
    contentHtml := match n.html with | some h => some h | none => r.contentHtml
    contentText := r.contentText
    publishedAt := match n.pub with | some p => some p | none => r.publishedAt }

/-- Lines 799–809: the freshly inserted row. -/
def newItem (fid : String) (g : String) (n : NormEntry) : Item :=
  { feedId := fid
    guid := g
    title := (n.title.or (n.urlCanon.or n.url)).getD "Untitled"
    url := n.urlCanon.or n.url
    contentHtml := n.html
    contentText := none
    publishedAt := n.pub }

/-- Line 775–778: the effective guid — canonical URL, else normalized
guid, else the deterministic hash fallback. (`??` keeps `""`.) -/
def effectiveGuidOf (env : Env) (fid : String) (n : NormEntry) : String :=
  (n.urlCanon.or n.guid).getD
    (hashGuidFallback env fid (n.urlCanon.or n.url) n.title n.pub)

/-- Lines 702–811, one loop iteration: search any identity candidate
(`findFirst` returns the first row in table order whose guid is among
the candidates; the matched guid is never `""` because candidates
exclude it, so `existing?.guid` truthiness equals existence); on a miss,
look up `(feedId, effectiveGuid)` and update or insert. Returns the new
store and `true` exactly when a row was inserted. -/
def findByCandidates (fid : String) (cands : List String) (store : Store) :
    Option Item :=
  if cands.isEmpty then none
  else store.find? (fun r => r.feedId = fid && cands.contains r.guid)

/-- The shared update shape of `updateMany` (lines 757–768, keyed by the
matched guid) and `update` (lines 787–796, keyed by the effective guid):
rewrite the metadata of every row of the feed carrying that guid. -/
def updateMatching (fid g : String) (n : NormEntry) (store : Store) : Store :=
  store.map (fun r =>
    if r.feedId = fid && r.guid = g then updateItemMeta n r else r)

def processEntry (env : Env) (fid : String) (raw : RawEntry) (store : Store) :
    Store × Bool :=
  let n := normalizeEntry env raw
  match findByCandidates fid (candidatesOf n) store with
  | some ex => (updateMatching fid ex.guid n store, false)
  | none =>
    let eg := effectiveGuidOf env fid n
    match store.find? (fun r => r.feedId = fid && r.guid = eg) with
    | some _ => (updateMatching fid eg n store, false)
    | none => (store ++ [newItem fid eg n], true)

/-- The `for (const raw of items)` loop with its `inserted`/`skipped`
counters. -/
def processEntries (env : Env) (fid : String) :
    List RawEntry → Store → Store × Nat × Nat
  | [], store => (store, 0, 0)
  | raw :: rest, store =>
    let step := processEntry env fid raw store
    let acc := processEntries env fid rest step.1
    if step.2 then (acc.1, acc.2.1 + 1, acc.2.2) else (acc.1, acc.2.1, acc.2.2 + 1)

/-- Lines 664–815: detect the RSS (`rss.channel`) or Atom (`feed`) shape
(Atom is consulted only when RSS produced no items), update the stored
feed title only when a non-empty document title was found, return
`{inserted: 0, skipped: 0}` for an empty entry list, otherwise run the
dedup loop. The fourth component is the feed-title update. -/
def docTitleAndEntries (obj : ParsedDoc) : Option String × List RawEntry :=
  let st1 : Option String × List RawEntry :=
    match obj.rssChannel with
    | some ch => (jsText ch.title, ch.item.toArray)
    | none => (none, [])
  if st1.2.length = 0 then
    match obj.feed with
    | some f => (jsText f.title, f.entry.toArray)
    | none => st1
  else st1

/-- `if (feedTitle) { await prisma.feed.update({... title ...}) }`:
only a truthy (non-empty) document title updates the Feed row. -/
def titleUpdOf (st : Option String) : Option String :=
  match st with
  | some t => if t = "" then none else some t
  | none => none

/-- Continuation of `processAtomOrRss` after shape detection. -/
def processAtomOrRss (env : Env) (fid : String) (body : String) (store : Store) :
    Store × Nat × Nat × Option String :=
  let st2 := docTitleAndEntries (env.xmlParse body)
  if st2.2.length = 0 then (store, 0, 0, titleUpdOf st2.1)
  else
    let res := processEntries env fid st2.2 store
    (res.1, res.2.1, res.2.2, titleUpdOf st2.1)

/-! ## Fetch worker (fetcher.ts, `performFetch`) and scheduler tick -/

/-- The Feed row columns `performFetch` and the scheduler read or write
(`errorCount` is read through `?? 0` in the source; it is modelled as
the resulting `Nat`). -/
structure Feed where
  id : String
  url : String
  title : String
  lastFetched : Option Int
  fetchInterval : Option Int
  etag : Option String
  lastModified : Option String
  errorCount : Nat
  backoffUntil : Option Int
  deriving Repr, DecidableEq

/-- The response of the conditional GET as `performFetch` consumes it. -/
structure HttpResponse where
  status : Nat
  etag : Option String
  lastModified : Option String
  body : String

/-- `res.ok` (Fetch standard): status in the inclusive range 200–299. -/
def HttpResponse.ok (r : HttpResponse) : Bool := 200 ≤ r.status && r.status ≤ 299

/-- The value `performFetch` resolves with. -/
structure FetchResult where
  status : Nat
  inserted : Nat
  skipped : Nat
  deriving Repr, DecidableEq

/-- `performFetch` (lines 817–875) as a function of the feed row
`findUnique` returned (`none` models the early `return` on a concurrent
deletion), the HTTP response the conditional GET produced, the current
time `now`, the sampled jitter `Math.floor(Math.random() * 30_000)`, and
the item store. On 304: reset error state, touch `lastFetched`, skip
parsing. On non-ok: clamp-increment `errorCount`, set `backoffUntil`.
On ok: parse, dedup, store new validators (`?? undefined` keeps the old
column when a header is missing), reset error state; the feed title
reflects the in-parse title update. -/
def performFetch (env : Env) (feed? : Option Feed) (res : HttpResponse)
    (now : Int) (jitter : Nat) (store : Store) :
    Option (Feed × Store × FetchResult) :=
  match feed? with
  | none => none
  | some feed =>
    if res.status = 304 then
      some ({ feed with
                lastFetched := some now
                errorCount := 0
                backoffUntil := none },
            store, ⟨304, 0, 0⟩)
    else if !res.ok then
      let nextCount := min (feed.errorCount + 1) 10
      let expMs := 2 ^ nextCount * 60000
      let backoffMs := min expMs capMs + jitter
      some ({ feed with
                lastFetched := some now
                errorCount := nextCount
                backoffUntil := some (now + (backoffMs : Int)) },
            store, ⟨res.status, 0, 0⟩)
    else
      let pr := processAtomOrRss env feed.id res.body store
      some ({ feed with
              lastFetched := some now
              etag := match res.etag with | some e => some e | none => feed.etag
              lastModified := match res.lastModified with
                              | some m => some m
                              | none => feed.lastModified
              errorCount := 0
              backoffUntil := none
              title := match pr.2.2.2 with | some t => t | none => feed.title },
            pr.1, ⟨200, pr.2.1, pr.2.2.1⟩)

/-- `f.backoffUntil && new Date(f.backoffUntil).getTime() > now.getTime()`. -/
def backoffActive (now : Int) (f : Feed) : Bool :=
  match f.backoffUntil with
  | some b => b > now
  | none => false

/-- `Math.max(5, f.fetchInterval ?? 30) * 60_000`. -/
def effectiveIntervalMs (f : Feed) : Int :=
  max 5 (f.fetchInterval.getD 30) * 60000

/-- `!f.lastFetched || now - lastFetched >= intervalMs`. -/
def feedDue (now : Int) (f : Feed) : Bool :=
  match f.lastFetched with
  | none => true
  | some t => now - t ≥ effectiveIntervalMs f

/-- The per-feed condition of the scheduler loop body: not inside a
backoff window, and due. -/
def shouldEnqueue (now : Int) (f : Feed) : Bool :=
  !backoffActive now f && feedDue now f

/-- One scheduler tick (lines 888–924): `findMany({ take: 1000 })`
returns at most the first 1000 feed rows; the loop enqueues one
`fetch` job (by feed id) per feed that passes the backoff and due-ness
checks. -/
def schedulerTick (now : Int) (feeds : List Feed) : List String :=
  ((feeds.take 1000).filter (shouldEnqueue now)).map (fun f => f.id)

/-! ## Identity notions used to state the dedup properties -/

/-- The `(feedId, guid)` identity of a stored row — the unique key of
the `Item` table. -/
def itemKey (r : Item) : String × String := (r.feedId, r.guid)

/-- The store contains a row with the given feed id and guid. -/
def HasKey (s : Store) (fid g : String) : Prop :=
  ∃ r ∈ s, r.feedId = fid ∧ r.guid = g

/-- Every guid under which the dedup loop can recognize (or would
insert) an entry: the effective guid plus the identity candidates. -/
def identityKeys (env : Env) (fid : String) (n : NormEntry) : List String :=
  effectiveGuidOf env fid n :: candidatesOf n

/-! ## Concrete sample values used to evaluate the model -/

/-- A concrete environment for evaluating the model at specific inputs:
dates never parse, the hash is a visible tag, the XML parser recognizes
one fixed body as a two-item RSS document. -/
def sampleItemA : RawEntry where
  guid := .str "guid-a"
  id := .nil
  title := .str "Article A"
  link := .str "https://x.com/a?utm_source=nl"
  pubDate := none
  published := none
  updated := none
  description := some "descA"
  content := none
  contentEncoded := none

/-- Second sample RSS item. -/
def sampleItemB : RawEntry where
  guid := .str "guid-b"
  id := .nil
  title := .str "Article B"
  link := .str "https://x.com/b"
  pubDate := none
  published := none
  updated := none
  description := some "descB"
  content := none
  contentEncoded := none

/-- A two-item RSS document. -/
def sampleDoc : ParsedDoc where
  rssChannel := some ⟨.str "Sample Feed", .many [sampleItemA, sampleItemB]⟩
  feed := none

/-- The fixed platform environment for witnesses: the body
`"rss-two-items"` parses to `sampleDoc`, anything else to an empty
document. -/
def sampleEnv : Env where
  jsDate := fun _ => none
  sha256hex := fun s => "sha256:" ++ s
  toISOString := fun n => toString n
  xmlParse := fun b => if b = "rss-two-items" then sampleDoc else ⟨none, none⟩

/-- An Atom entry with two empty `<link/>` nodes and no id: link
resolution yields the empty string, which `??` keeps. -/
def emptyLinksEntry : RawEntry where
  guid := .nil
  id := .nil
  title := .nil
  link := .arr [.str "", .str ""]
  pubDate := none
  published := none
  updated := none
  description := none
  content := none
  contentEncoded := none

/-- A stored row whose guid is a raw (non-URL) feed guid. -/
def rowRawGuid : Item where
  feedId := "f1"
  guid := "g1"
  title := "old title"
  url := none
  contentHtml := none
  contentText := none
  publishedAt := none

/-- A stored row whose guid is a canonical article URL. -/
def rowLinkGuid : Item where
  feedId := "f1"
  guid := "https://x.com/y"
  title := "B title"
  url := none
  contentHtml := none
  contentText := none
  publishedAt := none

/-- An entry whose raw guid matches `rowRawGuid` and whose canonicalized
link matches `rowLinkGuid`. -/
def driftEntry : RawEntry where
  guid := .str "g1"
  id := .nil
  title := .str "fresh title"
  link := .str "https://x.com/y"
  pubDate := none
  published := none
  updated := none
  description := none
  content := none
  contentEncoded := none

/-- The i-th of many due feeds (ids of pairwise distinct lengths). -/
def mkFeedN (i : Nat) : Feed where
  id := ⟨List.replicate i 'a'⟩
  url := ""
  title := ""
  lastFetched := none
  fetchInterval := none
  etag := none
  lastModified := none
  errorCount := 0
  backoffUntil := none

/-- 1001 distinct feeds, all immediately due, none backing off. -/
def feeds1001 : List Feed := (List.range 1001).map mkFeedN

/-- A feed with ten recorded consecutive failures. -/
def feedAtCap : Feed where
  id := "feed-cap"
  url := "https://x.com/rss"
  title := "capped"
  lastFetched := none
  fetchInterval := none
  etag := none
  lastModified := none
  errorCount := 10
  backoffUntil := none

/-- A plain healthy feed. -/
def feedFresh : Feed where
  id := "feed-1"
  url := "https://x.com/rss"
  title := "fresh"
  lastFetched := none
  fetchInterval := some 30
  etag := some "W/\x22abc\x22"
  lastModified := none
  errorCount := 3
  backoffUntil := some 99

/-! ## Lemmas: splitting characters lists -/

theorem takeWhile_append_of_forall {p : Char → Bool} {a : List Char} (b : List Char)
    (h : ∀ c ∈ a, p c = true) : (a ++ b).takeWhile p = a ++ b.takeWhile p := by
  induction a with
  | nil => simp
  | cons x xs ih =>
    have hx : p x = true := h x (by simp)
    simp [List.takeWhile_cons, hx, ih (fun c hc => h c (by simp [hc]))]

theorem dropWhile_append_of_forall {p : Char → Bool} {a : List Char} (b : List Char)
    (h : ∀ c ∈ a, p c = true) : (a ++ b).dropWhile p = b.dropWhile p := by
  induction a with
  | nil => simp
  | cons x xs ih =>
    have hx : p x = true := h x (by simp)
    simp [List.dropWhile_cons, hx, ih (fun c hc => h c (by simp [hc]))]

theorem takeUntil_split {p : Char → Bool} {a : List Char} {c : Char} (b : List Char)
    (ha : ∀ x ∈ a, p x = false) (hc : p c = true) :
    takeUntil p (a ++ c :: b) = (a, c :: b) := by
  unfold takeUntil
  rw [takeWhile_append_of_forall _ (fun x hx => by simp [ha x hx]),
      dropWhile_append_of_forall _ (fun x hx => by simp [ha x hx])]
  simp [List.takeWhile_cons, List.dropWhile_cons, hc]

theorem takeUntil_of_forall {p : Char → Bool} {l : List Char}
    (h : ∀ x ∈ l, p x = false) : takeUntil p l = (l, []) := by
  unfold takeUntil
  rw [List.takeWhile_eq_self_iff.mpr (fun x hx => by simp [h x hx]),
      List.dropWhile_eq_nil_iff.mpr (fun x hx => by simp [h x hx])]

theorem head?_dropWhile_false {p : Char → Bool} {l : List Char} {c : Char} {t : List Char}
    (h : l.dropWhile p = c :: t) : p c = false := by
  induction l with
  | nil => simp at h
  | cons x xs ih =>
    by_cases hx : p x
    · exact ih (by simpa [List.dropWhile_cons, hx] using h)
    · rw [List.dropWhile_cons, if_neg (by simp [hx])] at h
      cases h
      simpa using hx

/-! ## Lemmas: query-string splitting -/

theorem splitAmp_ne_nil (l : List Char) : splitAmp l ≠ [] := by
  induction l with
  | nil => simp [splitAmp]
  | cons x xs ih =>
    by_cases hx : x = '&'
    · simp [splitAmp, hx]
    · cases hs : splitAmp xs with
      | nil => exact absurd hs ih
      | cons h r => simp [splitAmp, hx, hs]

theorem splitAmp_of_no_amp {x : List Char} (h : '&' ∉ x) : splitAmp x = [x] := by
  induction x with
  | nil => rfl
  | cons c t ih =>
    have hc : ¬ c = '&' := fun hc => h (by simp [hc])
    have ht : splitAmp t = [t] := ih (fun hm => h (by simp [hm]))
    simp [splitAmp, hc, ht]

theorem splitAmp_append {x : List Char} (t : List Char) (h : '&' ∉ x) :
    splitAmp (x ++ '&' :: t) = x :: splitAmp t := by
  induction x with
  | nil => simp [splitAmp]
  | cons c cs ih =>
    have hc : ¬ c = '&' := fun hc => h (by simp [hc])
    have ih' := ih (fun hm => h (by simp [hm]))
    cases hs : splitAmp (cs ++ '&' :: t) with
    | nil => exact absurd hs (splitAmp_ne_nil _)
    | cons z zs =>
      rw [hs] at ih'
      cases ih'
      simp [List.cons_append, splitAmp, hc, hs]

theorem splitAmp_joinAmp {parts : List (List Char)} (hne : parts ≠ [])
    (h : ∀ x ∈ parts, '&' ∉ x) : splitAmp (joinAmp parts) = parts := by
  induction parts with
  | nil => exact absurd rfl hne
  | cons x xs ih =>
    cases xs with
    | nil => exact splitAmp_of_no_amp (h x (by simp))
    | cons y ys =>
      rw [show joinAmp (x :: y :: ys) = x ++ '&' :: joinAmp (y :: ys) from rfl,
          splitAmp_append _ (h x (by simp)),
          ih (by simp) (fun z hz => h z (by simp [hz]))]

theorem sublist_of_mem_splitAmp {x l : List Char} (hx : x ∈ splitAmp l) :
    x.Sublist l ∧ '&' ∉ x := by
  induction l generalizing x with
  | nil =>
    simp only [splitAmp, List.mem_singleton] at hx
    simp [hx]
  | cons c t ih =>
    by_cases hc : c = '&'
    · rw [splitAmp, if_pos hc] at hx
      rcases List.mem_cons.mp hx with h | h
      · simp [h]
      · exact ⟨(ih h).1.cons c, (ih h).2⟩
    · cases hs : splitAmp t with
      | nil => exact absurd hs (splitAmp_ne_nil t)
      | cons z zs =>
        rw [splitAmp, if_neg hc, hs] at hx
        rcases List.mem_cons.mp hx with h | h
        · subst h
          have hz := ih (show z ∈ splitAmp t by simp [hs])
          exact ⟨hz.1.cons₂ c, by
            simp only [List.mem_cons, not_or]
            exact ⟨fun e => hc e.symm, hz.2⟩⟩
        · have hz := ih (show x ∈ splitAmp t by simp [hs, h])
          exact ⟨hz.1.cons c, hz.2⟩

theorem mem_joinAmp {c : Char} {parts : List (List Char)} (h : c ∈ joinAmp parts) :
    c = '&' ∨ ∃ x ∈ parts, c ∈ x := by
  induction parts with
  | nil => simp [joinAmp] at h
  | cons x xs ih =>
    cases xs with
    | nil =>
      right
      exact ⟨x, by simp, by simpa [joinAmp] using h⟩
    | cons y ys =>
      rw [show joinAmp (x :: y :: ys) = x ++ '&' :: joinAmp (y :: ys) from rfl] at h
      rcases List.mem_append.mp h with h | h
      · exact Or.inr ⟨x, by simp, h⟩
      · rcases List.mem_cons.mp h with h | h
        · exact Or.inl h
        · rcases ih h with h | ⟨z, hz, hc⟩
          · exact Or.inl h
          · exact Or.inr ⟨z, by simp [hz], hc⟩

/-- Characters serialized from one query pair. -/
def pairChars (p : String × String) : List Char := p.1.data ++ '=' :: p.2.data

/-- Well-formedness of a query pair: the name avoids `=`, `&`, `#`; the
value avoids `&`, `#`. Every pair produced by `parseQuery` has this shape. -/
def GoodPair (p : String × String) : Prop :=
  ('=' ∉ p.1.data ∧ '&' ∉ p.1.data ∧ '#' ∉ p.1.data) ∧
    ('&' ∉ p.2.data ∧ '#' ∉ p.2.data)

theorem parsePair_pairChars {p : String × String} (h : '=' ∉ p.1.data) :
    parsePair (pairChars p) = p := by
  unfold parsePair pairChars
  rw [takeUntil_split _ (fun x hx => by
        simp only [decide_eq_false_iff_not]
        exact fun e => h (e ▸ hx)) (by simp)]

theorem serializeQuery_data (q : List (String × String)) :
    (serializeQuery q).data = joinAmp (q.map pairChars) := rfl

theorem parseQuery_serializeQuery {q : List (String × String)} (hne : q ≠ [])
    (hq : ∀ p ∈ q, GoodPair p) :
    parseQuery (serializeQuery q).data = q := by
  have hparts : ∀ x ∈ q.map pairChars, '&' ∉ x := by
    intro x hx
    rcases List.mem_map.mp hx with ⟨p, hp, rfl⟩
    simp only [pairChars, List.mem_append, List.mem_cons, not_or]
    exact ⟨((hq p hp).1).2.1, by simp, ((hq p hp).2).1⟩
  rw [serializeQuery_data]
  unfold parseQuery
  rw [splitAmp_joinAmp (by simpa using hne) hparts,
      List.filter_eq_self.mpr (fun x hx => by
        rcases List.mem_map.mp hx with ⟨p, _, rfl⟩
        simp [pairChars]),
      List.map_map]
  conv_rhs => rw [show q = q.map id from (List.map_id q).symm]
  exact List.map_congr_left (fun p hp =>
    parsePair_pairChars (((hq p hp).1).1))

/-! ## Well-formed URL records and the serialize/parse round trip -/

/-- The shape invariant of every `URLRec` produced by `parseURL`; it is
exactly what makes `URLRec.serialize` parse back to the same record. -/
structure URLWF (r : URLRec) : Prop where
  host_ne : r.host.data ≠ []
  host_ok : ∀ c ∈ r.host.data, c ≠ '/' ∧ c ≠ '?' ∧ c ≠ '#'
  path_head : r.pathname.data.head? = some '/'
  path_ok : ∀ c ∈ r.pathname.data, c ≠ '?' ∧ c ≠ '#'
  query_ok : ∀ p ∈ r.query, GoodPair p

theorem head?_takeWhile {p : Char → Bool} {l : List Char} {c : Char} {t : List Char}
    (h : l.takeWhile p = c :: t) : l.head? = some c ∧ p c = true := by
  cases l with
  | nil => simp at h
  | cons x xs =>
    rw [List.takeWhile_cons] at h
    by_cases hx : p x
    · rw [if_pos hx] at h
      cases h
      exact ⟨rfl, hx⟩
    · rw [if_neg hx] at h
      cases h

theorem no_hash_in_serializeQuery {q : List (String × String)}
    (hq : ∀ p ∈ q, GoodPair p) : '#' ∉ (serializeQuery q).data := by
  rw [serializeQuery_data]
  intro hmem
  rcases mem_joinAmp hmem with h | ⟨x, hx, hc⟩
  · simp at h
  · rcases List.mem_map.mp hx with ⟨p, hp, rfl⟩
    rcases List.mem_append.mp hc with h | h
    · exact ((hq p hp).1).2.2 h
    · rcases List.mem_cons.mp h with h | h
      · simp at h
      · exact ((hq p hp).2).2 h

theorem data_https_append (t : String) :
    ("https://" ++ t).data
      = 'h' :: 't' :: 't' :: 'p' :: 's' :: ':' :: '/' :: '/' :: t.data := by
  rw [String.data_append]; rfl

theorem data_http_append (t : String) :
    ("http://" ++ t).data
      = 'h' :: 't' :: 't' :: 'p' :: ':' :: '/' :: '/' :: t.data := by
  rw [String.data_append]; rfl

theorem parseURL_https (t : String) :
    parseURL ("https://" ++ t) = parseAfterScheme true t.data := by
  unfold parseURL
  rw [data_https_append]
  rw [if_pos (show (['h', 't', 't', 'p', 's', ':', '/', '/'].isPrefixOf
        ('h' :: 't' :: 't' :: 'p' :: 's' :: ':' :: '/' :: '/' :: t.data)) = true from
        List.isPrefixOf_iff_prefix.mpr ⟨t.data, rfl⟩)]
  rfl

theorem parseURL_http (t : String) :
    parseURL ("http://" ++ t) = parseAfterScheme false t.data := by
  unfold parseURL
  rw [data_http_append]
  rw [show (['h', 't', 't', 'p', 's', ':', '/', '/'].isPrefixOf
        ('h' :: 't' :: 't' :: 'p' :: ':' :: '/' :: '/' :: t.data)) = false from rfl]
  rw [if_neg (by simp)]
  rw [if_pos (show (['h', 't', 't', 'p', ':', '/', '/'].isPrefixOf
        ('h' :: 't' :: 't' :: 'p' :: ':' :: '/' :: '/' :: t.data)) = true from
        List.isPrefixOf_iff_prefix.mpr ⟨t.data, rfl⟩)]
  rfl

theorem stop_false_of_host {host : String}
    (hostok : ∀ c ∈ host.data, c ≠ '/' ∧ c ≠ '?' ∧ c ≠ '#') :
    ∀ x ∈ host.data, (x = '/' || x = '?' || x = '#') = false := by
  intro x hx
  obtain ⟨h1, h2, h3⟩ := hostok x hx
  simp [h1, h2, h3]

theorem serialize_data (r : URLRec) :
    r.serialize.data = (if r.secure then "https://" else "http://").data ++
      (r.host.data ++ (r.pathname.data ++ (qdata r.query ++ fdata r.fragment))) := by
  unfold URLRec.serialize qdata fdata
  by_cases hq : r.query = [] <;> cases hf : r.fragment <;>
    simp [hq, hf, String.data_append]

theorem parseURL_of_data_https {s : String} {l : List Char}
    (h : s.data = 'h' :: 't' :: 't' :: 'p' :: 's' :: ':' :: '/' :: '/' :: l) :
    parseURL s = parseAfterScheme true l := by
  unfold parseURL
  rw [h]
  rw [if_pos (show (['h', 't', 't', 'p', 's', ':', '/', '/'].isPrefixOf
        ('h' :: 't' :: 't' :: 'p' :: 's' :: ':' :: '/' :: '/' :: l)) = true from
        List.isPrefixOf_iff_prefix.mpr ⟨l, rfl⟩)]
  rfl

theorem parseURL_of_data_http {s : String} {l : List Char}
    (h : s.data = 'h' :: 't' :: 't' :: 'p' :: ':' :: '/' :: '/' :: l) :
    parseURL s = parseAfterScheme false l := by
  unfold parseURL
  rw [h]
  rw [show (['h', 't', 't', 'p', 's', ':', '/', '/'].isPrefixOf
        ('h' :: 't' :: 't' :: 'p' :: ':' :: '/' :: '/' :: l)) = false from rfl]
  rw [if_neg (by simp)]
  rw [if_pos (show (['h', 't', 't', 'p', ':', '/', '/'].isPrefixOf
        ('h' :: 't' :: 't' :: 'p' :: ':' :: '/' :: '/' :: l)) = true from
        List.isPrefixOf_iff_prefix.mpr ⟨l, rfl⟩)]
  rfl

theorem parseAfterScheme_serialize (sec : Bool) (frag : Option String)
    {host path : String} {query : List (String × String)}
    (hne : host.data ≠ [])
    (hostok : ∀ c ∈ host.data, c ≠ '/' ∧ c ≠ '?' ∧ c ≠ '#')
    (phead : path.data.head? = some '/')
    (pok : ∀ c ∈ path.data, c ≠ '?' ∧ c ≠ '#')
    (qok : ∀ p ∈ query, GoodPair p) :
    parseAfterScheme sec (host.data ++ (path.data ++ (qdata query ++ fdata frag)))
      = some ⟨sec, host, path, query, frag⟩ := by
  obtain ⟨pt, hpt⟩ : ∃ pt, path.data = '/' :: pt := by
    cases hp : path.data with
    | nil => rw [hp] at phead; cases phead
    | cons c t =>
      rw [hp] at phead
      simp only [List.head?_cons, Option.some.injEq] at phead
      exact ⟨t, by rw [phead]⟩
  rw [hpt] at pok
  have hall : ∀ x ∈ '/' :: pt, (decide (x = '#')) = false := by
    intro x hx
    simp only [decide_eq_false_iff_not]
    rcases List.mem_cons.mp hx with h | h
    · simp [h]
    · exact (pok x (by simp [h])).2
  have hallq : ∀ x ∈ '/' :: pt, (decide (x = '?')) = false := by
    intro x hx
    simp only [decide_eq_false_iff_not]
    rcases List.mem_cons.mp hx with h | h
    · simp [h]
    · exact (pok x (by simp [h])).1
  have hmkpath : (⟨'/' :: pt⟩ : String) = path := by rw [← hpt]
  rw [hpt,
      show host.data ++ (('/' :: pt) ++ (qdata query ++ fdata frag))
        = host.data ++ '/' :: (pt ++ (qdata query ++ fdata frag)) by simp]
  simp only [parseAfterScheme]
  rw [takeUntil_split _ (stop_false_of_host hostok) (by simp)]
  simp only [if_neg hne]
  by_cases hq : query = []
  · cases frag with
    | none =>
      simp only [qdata, if_pos hq, fdata, List.append_nil]
      rw [takeUntil_of_forall hall]
      simp only []
      rw [takeUntil_of_forall hallq]
      simp only [List.cons_ne_nil, if_neg, hmkpath, hq]
      simp [hmkpath]
    | some f =>
      simp only [qdata, if_pos hq, fdata, List.nil_append]
      rw [show ('/' :: (pt ++ '#' :: f.data)) = ('/' :: pt) ++ '#' :: f.data by simp]
      rw [takeUntil_split _ hall (by simp)]
      simp only []
      rw [takeUntil_of_forall hallq]
      simp [hmkpath, hq]
  · have hsq_no_hash : ∀ x ∈ (serializeQuery query).data, (decide (x = '#')) = false := by
      intro x hx
      simp only [decide_eq_false_iff_not]
      exact fun e => no_hash_in_serializeQuery qok (e ▸ hx)
    have hparse_q : parseQuery (serializeQuery query).data = query :=
      parseQuery_serializeQuery hq qok
    cases frag with
    | none =>
      have hnh : ∀ x ∈ '/' :: pt ++ '?' :: (serializeQuery query).data,
          (decide (x = '#')) = false := by
        intro x hx
        rcases List.mem_append.mp hx with h | h
        · exact hall x h
        · rcases List.mem_cons.mp h with h | h
          · simp [h]
          · exact hsq_no_hash x h
      simp only [qdata, if_neg hq, fdata, List.append_nil]
      rw [show ('/' :: (pt ++ '?' :: (serializeQuery query).data))
            = ('/' :: pt ++ '?' :: (serializeQuery query).data) by simp]
      have hfz : takeUntil (fun c => decide (c = '#'))
          ('/' :: pt ++ '?' :: (serializeQuery query).data)
          = ('/' :: pt ++ '?' :: (serializeQuery query).data, []) :=
        takeUntil_of_forall hnh
      rw [hfz]
      simp only []
      have hqz : takeUntil (fun c => decide (c = '?'))
          ('/' :: pt ++ '?' :: (serializeQuery query).data)
          = ('/' :: pt, '?' :: (serializeQuery query).data) :=
        takeUntil_split _ hallq (by simp)
      rw [hqz]
      simp [hmkpath, hparse_q]
    | some f =>
      have hnh : ∀ x ∈ '/' :: pt ++ '?' :: (serializeQuery query).data,
          (decide (x = '#')) = false := by
        intro x hx
        rcases List.mem_append.mp hx with h | h
        · exact hall x h
        · rcases List.mem_cons.mp h with h | h
          · simp [h]
          · exact hsq_no_hash x h
      simp only [qdata, if_neg hq, fdata]
      rw [show ('/' :: (pt ++ ('?' :: (serializeQuery query).data ++ '#' :: f.data)))
            = ('/' :: pt ++ '?' :: (serializeQuery query).data) ++ '#' :: f.data by simp]
      have hfz : takeUntil (fun c => decide (c = '#'))
          (('/' :: pt ++ '?' :: (serializeQuery query).data) ++ '#' :: f.data)
          = ('/' :: pt ++ '?' :: (serializeQuery query).data, '#' :: f.data) :=
        takeUntil_split _ hnh (by simp)
      rw [hfz]
      simp only []
      have hqz : takeUntil (fun c => decide (c = '?'))
          ('/' :: pt ++ '?' :: (serializeQuery query).data)
          = ('/' :: pt, '?' :: (serializeQuery query).data) :=
        takeUntil_split _ hallq (by simp)
      rw [hqz]
      simp [hmkpath, hparse_q]

/-- Central round trip: a well-formed record reparses from its own
serialization. This is what makes a second `canonicalUrl` pass see the
same URL value the first pass produced. -/
theorem parse_serialize {r : URLRec} (w : URLWF r) :
    parseURL r.serialize = some r := by
  obtain ⟨sec, host, path, query, frag⟩ := r
  obtain ⟨hne, hostok, phead, pok, qok⟩ := w
  have hmain := parseAfterScheme_serialize sec frag hne hostok phead pok qok
  have hd := serialize_data ⟨sec, host, path, query, frag⟩
  cases sec with
  | true =>
    rw [show (if (true : Bool) then "https://" else "http://") = "https://" from rfl] at hd
    rw [show ("https://" : String).data = ['h', 't', 't', 'p', 's', ':', '/', '/'] from rfl] at hd
    exact (parseURL_of_data_https (by simpa using hd)).trans hmain
  | false =>
    rw [show (if (false : Bool) then "https://" else "http://") = "http://" from rfl] at hd
    rw [show ("http://" : String).data = ['h', 't', 't', 'p', ':', '/', '/'] from rfl] at hd
    exact (parseURL_of_data_http (by simpa using hd)).trans hmain

/-! ## Every parsed URL is well formed -/

theorem parsePair_good {seg : List Char} (hamp : '&' ∉ seg) (hhash : '#' ∉ seg) :
    GoodPair (parsePair seg) := by
  unfold parsePair GoodPair takeUntil
  have hname : ∀ x ∈ seg.takeWhile (fun c => !(decide (c = '='))),
      x ∈ seg ∧ x ≠ '=' := by
    intro x hx
    refine ⟨(List.takeWhile_sublist _).subset hx, ?_⟩
    have := List.mem_takeWhile_imp hx
    simpa using this
  refine ⟨⟨?_, ?_, ?_⟩, ?_⟩
  · exact fun hm => ((hname '=' hm).2) rfl
  · exact fun hm => hamp ((hname '&' hm).1)
  · exact fun hm => hhash ((hname '#' hm).1)
  · cases hd : seg.dropWhile (fun c => !(decide (c = '='))) with
    | nil => simp
    | cons c v =>
      simp only []
      have hv : ∀ x ∈ v, x ∈ seg := by
        intro x hx
        exact (List.dropWhile_sublist _).subset (hd ▸ List.mem_cons_of_mem c hx)
      exact ⟨fun hm => hamp (hv '&' hm), fun hm => hhash (hv '#' hm)⟩

theorem parseQuery_good {qs : List Char} (hhash : '#' ∉ qs) :
    ∀ p ∈ parseQuery qs, GoodPair p := by
  intro p hp
  unfold parseQuery at hp
  rcases List.mem_map.mp hp with ⟨seg, hseg, rfl⟩
  have hseg' := (List.mem_filter.mp hseg).1
  have hsub := sublist_of_mem_splitAmp hseg'
  exact parsePair_good hsub.2 (fun hm => hhash (hsub.1.subset hm))

theorem parseAfterScheme_wf {sec : Bool} {l : List Char} {r : URLRec}
    (h : parseAfterScheme sec l = some r) : URLWF r := by
  simp only [parseAfterScheme] at h
  by_cases hA : (takeUntil (fun c => c = '/' || c = '?' || c = '#') l).1 = []
  · rw [if_pos hA] at h; cases h
  · rw [if_neg hA] at h
    injection h with h
    subst h
    have hmemA : ∀ c ∈ (takeUntil (fun c => c = '/' || c = '?' || c = '#') l).1,
        c ≠ '/' ∧ c ≠ '?' ∧ c ≠ '#' := by
      intro c hc
      have h0 := List.mem_takeWhile_imp hc
      have h0' : (¬c = '/' ∧ ¬c = '?') ∧ ¬c = '#' := by simpa using h0
      exact ⟨h0'.1.1, h0'.1.2, h0'.2⟩
    have hf1 : ∀ c ∈ (takeUntil (fun c => c = '#')
        (takeUntil (fun c => c = '/' || c = '?' || c = '#') l).2).1, c ≠ '#' := by
      intro c hc
      have := List.mem_takeWhile_imp hc
      simpa using this
    have hq1 : ∀ c ∈ (takeUntil (fun c => c = '?')
        (takeUntil (fun c => c = '#')
          (takeUntil (fun c => c = '/' || c = '?' || c = '#') l).2).1).1,
        c ≠ '?' ∧ c ≠ '#' := by
      intro c hc
      have h1 := List.mem_takeWhile_imp hc
      refine ⟨by simpa using h1, ?_⟩
      exact hf1 c ((List.takeWhile_sublist _).subset hc)
    refine ⟨hA, hmemA, ?_, ?_, ?_⟩
    · by_cases hz : (takeUntil (fun c => c = '?')
          (takeUntil (fun c => c = '#')
            (takeUntil (fun c => c = '/' || c = '?' || c = '#') l).2).1).1 = []
      · simp only [hz, if_pos]
        rfl
      · rw [if_neg hz]
        cases hq : (takeUntil (fun c => c = '?')
            (takeUntil (fun c => c = '#')
              (takeUntil (fun c => c = '/' || c = '?' || c = '#') l).2).1).1 with
        | nil => exact absurd hq hz
        | cons c0 t0 =>
          have hfh := head?_takeWhile hq
          cases hfc : (takeUntil (fun c => c = '#')
              (takeUntil (fun c => c = '/' || c = '?' || c = '#') l).2).1 with
          | nil => rw [hfc] at hfh; cases hfh.1
          | cons c1 t1 =>
            rw [hfc] at hfh
            have hc01 : c0 = c1 := by
              have := hfh.1
              simpa using this.symm
            have hbh := head?_takeWhile hfc
            cases hbc : (takeUntil (fun c => c = '/' || c = '?' || c = '#') l).2 with
            | nil => rw [hbc] at hbh; cases hbh.1
            | cons c2 t2 =>
              rw [hbc] at hbh
              have hc12 : c1 = c2 := by
                have := hbh.1
                simpa using this.symm
              have hstop := head?_dropWhile_false hbc
              have hq' : ¬ (c0 = '?') := by simpa using hfh.2
              have hh' : ¬ (c1 = '#') := by simpa using hbh.2
              have : (c2 = '/' ∨ c2 = '?' ∨ c2 = '#') := by
                have h2 : ¬c2 = '/' → ¬c2 = '?' → c2 = '#' := by simpa using hstop
                by_cases ha : c2 = '/'
                · exact Or.inl ha
                · by_cases hb : c2 = '?'
                  · exact Or.inr (Or.inl hb)
                  · exact Or.inr (Or.inr (h2 ha hb))
              have hc0 : c0 = '/' := by
                rcases this with h | h | h
                · rw [hc01, hc12, h]
                · exact absurd (hc01 ▸ hc12 ▸ h) hq'
                · exact absurd (hc12 ▸ h) hh'
              simp [hc0]
    · intro c hc
      by_cases hz : (takeUntil (fun c => c = '?')
          (takeUntil (fun c => c = '#')
            (takeUntil (fun c => c = '/' || c = '?' || c = '#') l).2).1).1 = []
      · rw [if_pos hz] at hc
        have : c = '/' := by
          have : c ∈ ['/'] := hc
          simpa using this
        simp [this]
      · rw [if_neg hz] at hc
        exact hq1 c hc
    · cases hd : (takeUntil (fun c => c = '?')
          (takeUntil (fun c => c = '#')
            (takeUntil (fun c => c = '/' || c = '?' || c = '#') l).2).1).2 with
      | nil => simp [hd]
      | cons c qs =>
        simp only [hd]
        refine parseQuery_good ?_
        intro hm
        have hqs : '#' ∈ (takeUntil (fun c => c = '?')
            (takeUntil (fun c => c = '#')
              (takeUntil (fun c => c = '/' || c = '?' || c = '#') l).2).1).2 := by
          rw [hd]; exact List.mem_cons_of_mem c hm
        have : '#' ∈ (takeUntil (fun c => c = '#')
            (takeUntil (fun c => c = '/' || c = '?' || c = '#') l).2).1 :=
          (List.dropWhile_sublist _).subset hqs
        exact hf1 '#' this rfl

theorem parseURL_wf {s : String} {r : URLRec} (h : parseURL s = some r) :
    URLWF r := by
  unfold parseURL at h
  by_cases h1 : ['h', 't', 't', 'p', 's', ':', '/', '/'].isPrefixOf s.data
  · rw [if_pos h1] at h
    exact parseAfterScheme_wf h
  · rw [if_neg h1] at h
    by_cases h2 : ['h', 't', 't', 'p', ':', '/', '/'].isPrefixOf s.data
    · rw [if_pos h2] at h
      exact parseAfterScheme_wf h
    · rw [if_neg h2] at h
      cases h

/-! ## Path canonicalization: shape lemmas and conditional idempotence -/

theorem head?_of_listPref {l₁ l₂ : List Char} (h : l₁ <+: l₂) (hne : l₁ ≠ []) :
    l₁.head? = l₂.head? := by
  obtain ⟨t, rfl⟩ := h
  cases l₁ with
  | nil => exact absurd rfl hne
  | cons a b => rfl

theorem head?_take_of_ne_nil {l : List Char} {c : Char} {k : Nat}
    (h : l.head? = some c) (hne : l.take k ≠ []) : (l.take k).head? = some c := by
  cases l with
  | nil => cases h
  | cons a b =>
    cases k with
    | zero => exact absurd rfl hne
    | succ n =>
      simp only [List.take_succ_cons, List.head?_cons] at *
      exact h

theorem data_ne_nil_of_ne_empty {s : String} (h : s ≠ "") : s.data ≠ [] := by
  intro hd
  exact h (String.ext (by simp [hd]))

theorem dropAmp_head {s : String} (h : s.data.head? = some '/') :
    (dropAmp s).data.head? = some '/' := by
  unfold dropAmp
  by_cases ht : s.data.take (s.data.length - 4) = []
  · rw [if_pos ht]; rfl
  · rw [if_neg ht]
    exact head?_take_of_ne_nil h ht

theorem dropAmp_mem {s : String} {c : Char} (hc : c ∈ (dropAmp s).data) :
    c ∈ s.data ∨ c = '/' := by
  unfold dropAmp at hc
  by_cases ht : s.data.take (s.data.length - 4) = []
  · rw [if_pos ht] at hc
    right
    simpa using hc
  · rw [if_neg ht] at hc
    exact Or.inl ((List.take_sublist _ _).subset hc)

theorem rstripSlashes_listPref (s : String) : (rstripSlashes s).data <+: s.data := by
  unfold rstripSlashes
  have h : (s.data.reverse.dropWhile (fun c => c = '/')) <:+ s.data.reverse :=
    List.dropWhile_suffix _
  have := List.reverse_prefix.mpr h
  simpa using this

theorem rstripSlashes_head {s : String} (h : s.data.head? = some '/')
    (hne : (rstripSlashes s).data ≠ []) : (rstripSlashes s).data.head? = some '/' := by
  rw [head?_of_listPref (rstripSlashes_listPref s) hne]
  exact h

theorem rstripSlashes_no_trailing {s : String} (hne : (rstripSlashes s).data ≠ []) :
    (rstripSlashes s).data.getLast? ≠ some '/' := by
  unfold rstripSlashes at *
  rw [show ((⟨(s.data.reverse.dropWhile (fun c => c = '/')).reverse⟩ : String)).data
        = (s.data.reverse.dropWhile (fun c => c = '/')).reverse from rfl] at *
  rw [List.getLast?_reverse]
  cases hd : s.data.reverse.dropWhile (fun c => c = '/') with
  | nil => rw [hd] at hne; simp at hne
  | cons c t =>
    have := head?_dropWhile_false hd
    simp only [List.head?_cons, Ne, Option.some.injEq]
    intro e
    rw [e] at this
    simp at this

theorem canonPath_head {s : String} (h : s.data.head? = some '/') :
    (canonPath s).data.head? = some '/' := by
  unfold canonPath
  have h1 : (if pathEndsAmp s then dropAmp s else s).data.head? = some '/' := by
    by_cases ha : pathEndsAmp s
    · rw [if_pos ha]; exact dropAmp_head h
    · rw [if_neg ha]; exact h
  by_cases hc : ((if pathEndsAmp s then dropAmp s else s).length > 1
      && pathEndsSlash (if pathEndsAmp s then dropAmp s else s)) = true
  · rw [if_pos hc]
    by_cases hz : rstripSlashes (if pathEndsAmp s then dropAmp s else s) = ""
    · rw [if_pos hz]; rfl
    · rw [if_neg hz]
      exact rstripSlashes_head h1 (data_ne_nil_of_ne_empty hz)
  · rw [if_neg hc]
    exact h1

theorem canonPath_mem {s : String} {c : Char} (hc : c ∈ (canonPath s).data) :
    c ∈ s.data ∨ c = '/' := by
  unfold canonPath at hc
  have step1 : ∀ d, d ∈ (if pathEndsAmp s then dropAmp s else s).data →
      d ∈ s.data ∨ d = '/' := by
    intro d hd
    by_cases ha : pathEndsAmp s
    · rw [if_pos ha] at hd; exact dropAmp_mem hd
    · rw [if_neg ha] at hd; exact Or.inl hd
  by_cases hcond : ((if pathEndsAmp s then dropAmp s else s).length > 1
      && pathEndsSlash (if pathEndsAmp s then dropAmp s else s)) = true
  · rw [if_pos hcond] at hc
    by_cases hz : rstripSlashes (if pathEndsAmp s then dropAmp s else s) = ""
    · rw [if_pos hz] at hc
      right
      simpa using hc
    · rw [if_neg hz] at hc
      exact step1 c ((rstripSlashes_listPref _).subset hc)
  · rw [if_neg hcond] at hc
    exact step1 c hc

theorem canonPath_slash_cases {s : String} (h : s.data.head? = some '/') :
    canonPath s = "/" ∨ pathEndsSlash (canonPath s) = false := by
  unfold canonPath
  have h1 : (if pathEndsAmp s then dropAmp s else s).data.head? = some '/' := by
    by_cases ha : pathEndsAmp s
    · rw [if_pos ha]; exact dropAmp_head h
    · rw [if_neg ha]; exact h
  by_cases hc : ((if pathEndsAmp s then dropAmp s else s).length > 1
      && pathEndsSlash (if pathEndsAmp s then dropAmp s else s)) = true
  · rw [if_pos hc]
    by_cases hz : rstripSlashes (if pathEndsAmp s then dropAmp s else s) = ""
    · rw [if_pos hz]; exact Or.inl rfl
    · rw [if_neg hz]
      right
      unfold pathEndsSlash
      simp only [Ne, decide_eq_false_iff_not]
      exact fun e =>
        rstripSlashes_no_trailing (data_ne_nil_of_ne_empty hz) (by simpa using e)
  · rw [if_neg hc]
    by_cases hs : pathEndsSlash (if pathEndsAmp s then dropAmp s else s) = true
    · left
      have hlen : ¬ ((if pathEndsAmp s then dropAmp s else s).length > 1) := by
        intro hgt
        exact hc (by simp [hgt, hs])
      set w := (if pathEndsAmp s then dropAmp s else s) with hw
      cases hd : w.data with
      | nil => rw [hd] at h1; cases h1
      | cons a t =>
        rw [hd] at h1
        simp only [List.head?_cons, Option.some.injEq] at h1
        cases t with
        | nil =>
          refine String.ext ?_
          rw [hd, h1]
        | cons b u =>
          exfalso
          apply hlen
          have : w.length = w.data.length := rfl
          rw [this, hd]
          simp
    · right
      simpa using hs

theorem canonPath_fixed {x : String} (hamp : pathEndsAmp x = false)
    (hslash : pathEndsSlash x = false) : canonPath x = x := by
  unfold canonPath
  rw [if_neg (show ¬ pathEndsAmp x = true by simp [hamp])]
  rw [if_neg (show ¬ ((decide (x.length > 1) && pathEndsSlash x) = true) by
    simp [hslash])]

theorem canonPath_idem {s : String} (h : s.data.head? = some '/')
    (hamp : pathEndsAmp (canonPath s) = false) :
    canonPath (canonPath s) = canonPath s := by
  rcases canonPath_slash_cases h with hroot | hslash
  · rw [hroot]
    decide
  · exact canonPath_fixed hamp hslash

/-! ## Canonicalized records stay well formed; conditional idempotence -/

theorem canonRec_wf {r : URLRec} (w : URLWF r) : URLWF (canonRec r) := by
  obtain ⟨hne, hostok, phead, pok, qok⟩ := w
  refine ⟨hne, hostok, canonPath_head phead, ?_, ?_⟩
  · intro c hc
    rcases canonPath_mem hc with hm | hm
    · exact pok c hm
    · constructor <;> simp [hm]
  · intro p hp
    exact qok p (List.mem_filter.mp hp).1

theorem canonRec_idem {r : URLRec} (phead : r.pathname.data.head? = some '/')
    (hamp : pathEndsAmp (canonPath r.pathname) = false) :
    canonRec (canonRec r) = canonRec r := by
  unfold canonRec
  simp only [URLRec.mk.injEq, true_and, and_true]
  exact ⟨canonPath_idem phead hamp,
    List.filter_eq_self.mpr (fun a ha => (List.mem_filter.mp ha).2)⟩

theorem canonicalUrlStr_unparsable {s : String} (h : parseURL s = none) :
    canonicalUrlStr s = s := by
  unfold canonicalUrlStr
  rw [h]

theorem canonicalUrlStr_parsed {s : String} {r : URLRec} (h : parseURL s = some r) :
    canonicalUrlStr s = (canonRec r).serialize := by
  unfold canonicalUrlStr
  rw [h]

/-! ## Claim C2 -/

/-- C2, counterexample: canonicalization is *not* idempotent as claimed.
For `u = "https://x.com/amp/amp"` the first `canonicalUrl` pass strips only
one trailing `/amp` segment, yielding `"https://x.com/amp"`, and a second
pass strips the remaining one, yielding `"https://x.com/"`. So
`canonicalUrl (canonicalUrl u) ≠ canonicalUrl u`. -/
theorem C2_canonicalUrl_not_idempotent :
    canonicalUrl (canonicalUrl (some "https://x.com/amp/amp"))
      ≠ canonicalUrl (some "https://x.com/amp/amp") := by decide

/-- C2 (amended): canonicalizing twice equals canonicalizing once for
every URL string whose canonical form does not still end in an `/amp`
path segment (the only exception, forced by the counterexample); and for
every parsable URL, the canonical form has no fragment and none of the
fixed allow-list of tracking query parameters. -/
theorem C2_canonicalUrl_idem_and_strips :
    (∀ s : String,
        ((parseURL (canonicalUrlStr s)).all fun r => !pathEndsAmp r.pathname) = true →
        canonicalUrlStr (canonicalUrlStr s) = canonicalUrlStr s) ∧
    (∀ s r₀, parseURL s = some r₀ →
        ∃ r, parseURL (canonicalUrlStr s) = some r ∧ r.fragment = none ∧
          ∀ p ∈ r.query, p.1 ∉ dropParams) := by
  constructor
  · intro s hno
    cases hp : parseURL s with
    | none => simp [canonicalUrlStr_unparsable hp]
    | some r =>
      have hw := parseURL_wf hp
      have hcw := canonRec_wf hw
      have hrt : parseURL (canonRec r).serialize = some (canonRec r) :=
        parse_serialize hcw
      have h1 : canonicalUrlStr s = (canonRec r).serialize :=
        canonicalUrlStr_parsed hp
      rw [h1] at hno ⊢
      rw [hrt] at hno
      have hamp : pathEndsAmp (canonRec r).pathname = false := by
        simpa using hno
      rw [canonicalUrlStr_parsed hrt, canonRec_idem hw.path_head hamp]
  · intro s r₀ hp
    have hw := parseURL_wf hp
    have hrt : parseURL (canonRec r₀).serialize = some (canonRec r₀) :=
      parse_serialize (canonRec_wf hw)
    refine ⟨canonRec r₀, ?_, rfl, ?_⟩
    · rw [canonicalUrlStr_parsed hp]
      exact hrt
    · intro p hp'
      have := (List.mem_filter.mp hp').2
      simpa using this

/-- C2, witness: the amended theorem applied at the concrete URL
`"https://x.com/read/?utm_source=a&q=1#top"`. -/
theorem C2_canonicalUrl_idem_and_strips_witness :
    (canonicalUrlStr (canonicalUrlStr "https://x.com/read/?utm_source=a&q=1#top")
      = canonicalUrlStr "https://x.com/read/?utm_source=a&q=1#top") ∧
    (∃ r, parseURL (canonicalUrlStr "https://x.com/read/?utm_source=a&q=1#top")
        = some r ∧ r.fragment = none ∧ ∀ p ∈ r.query, p.1 ∉ dropParams) :=
  ⟨C2_canonicalUrl_idem_and_strips.1 "https://x.com/read/?utm_source=a&q=1#top"
      (by decide),
   C2_canonicalUrl_idem_and_strips.2 "https://x.com/read/?utm_source=a&q=1#top"
      ⟨true, "x.com", "/read/", [("utm_source", "a"), ("q", "1")], some "top"⟩
      (by decide)⟩

/-! ## Claims C3 and C4: the backoff policy -/

/-- C3: for failureCount 1..12 the pre-jitter delay is non-decreasing,
is constant from failureCount 10 on (the clamp to 10 before
exponentiation makes growth saturate), and the total delay including any
jitter below 30 s never exceeds six hours plus the 30-second jitter
bound. -/
theorem C3_backoff_monotone_saturating_capped :
    (∀ n m : Nat, 1 ≤ n → n ≤ m → m ≤ 12 →
        backoffPreJitterMs n ≤ backoffPreJitterMs m) ∧
    (∀ n : Nat, 10 ≤ n → n ≤ 12 →
        backoffPreJitterMs n = backoffPreJitterMs 10) ∧
    (∀ n jitter : Nat, 1 ≤ n → n ≤ 12 → jitter < 30000 →
        backoffTotalMs n jitter ≤ capMs + 30000) := by
  refine ⟨?_, ?_, ?_⟩
  · intro n m h1 hnm hm12
    have hmono : min n 10 ≤ min m 10 := by omega
    unfold backoffPreJitterMs
    exact min_le_min (Nat.mul_le_mul_right _ (Nat.pow_le_pow_right (by norm_num) hmono))
      le_rfl
  · intro n h10 h12
    have h : min n 10 = 10 := by omega
    unfold backoffPreJitterMs
    rw [h]
    norm_num
  · intro n jitter h1 h12 hj
    unfold backoffTotalMs backoffPreJitterMs
    have h1 : min (2 ^ min n 10 * 60000) capMs ≤ capMs := min_le_right _ _
    omega

/-- C3, witness: the three parts of the theorem at failure counts 3 ≤ 5,
at 11, and at 7 with jitter 29999. -/
theorem C3_backoff_monotone_saturating_capped_witness :
    backoffPreJitterMs 3 ≤ backoffPreJitterMs 5 ∧
    backoffPreJitterMs 11 = backoffPreJitterMs 10 ∧
    backoffTotalMs 7 29999 ≤ capMs + 30000 :=
  ⟨C3_backoff_monotone_saturating_capped.1 3 5 (by decide) (by decide) (by decide),
   C3_backoff_monotone_saturating_capped.2.1 11 (by decide) (by decide),
   C3_backoff_monotone_saturating_capped.2.2 7 29999 (by decide) (by decide)
     (by decide)⟩

/-- C4: the code computes `Math.pow(2, min(n,10)) * 60_000`, so the first
failure (failureCount 1) waits `2^1` minutes = 120 000 ms, not the one
minute (`2^(1-1)` minutes = 60 000 ms) the claim (and the code's own
inline comment "start at 1m, then 2m, 4m, ...") prescribes. -/
theorem C4_backoff_first_failure_is_two_minutes :
    backoffPreJitterMs 1 = 120000 ∧ 2 ^ (1 - 1) * 60000 = 60000 ∧
      backoffPreJitterMs 1 ≠ 2 ^ (1 - 1) * 60000 := by decide

/-! ## Claim C5: the 304 short circuit -/

/-- C5: on an HTTP 304 response the worker updates `lastFetched`, sets
`errorCount` to 0 and `backoffUntil` to null, leaves the item store
untouched, and returns exactly `{status: 304, inserted: 0, skipped: 0}`;
the result is the same for every environment and every response body, so
the normalizer is never consulted. -/
theorem C5_304_short_circuit (env : Env) (feed : Feed) (res : HttpResponse)
    (now : Int) (jitter : Nat) (store : Store) (h304 : res.status = 304) :
    performFetch env (some feed) res now jitter store =
      some ({ feed with
                lastFetched := some now
                errorCount := 0
                backoffUntil := none },
            store, ⟨304, 0, 0⟩) ∧
    (∀ env₂ : Env, ∀ body₂ : String,
      performFetch env₂ (some feed) { res with body := body₂ } now jitter store =
        performFetch env (some feed) res now jitter store) := by
  constructor
  · simp only [performFetch]
    rw [if_pos h304]
  · intro env₂ body₂
    simp only [performFetch]
    rw [if_pos h304, if_pos (show ({ res with body := body₂ } :
          HttpResponse).status = 304 from h304)]

/-- C5, witness: the theorem at a concrete feed and a concrete 304
response carrying a (never-parsed) body. -/
theorem C5_304_short_circuit_witness :
    performFetch sampleEnv (some feedFresh) ⟨304, none, none, "rss-two-items"⟩
        7 3 [] =
      some ({ feedFresh with
                lastFetched := some 7
                errorCount := 0
                backoffUntil := none },
            [], ⟨304, 0, 0⟩) :=
  (C5_304_short_circuit sampleEnv feedFresh ⟨304, none, none, "rss-two-items"⟩
    7 3 [] rfl).1

/-! ## Claim C6: the non-2xx path -/

/-- C6, counterexample: with `errorCount` already 10, a failing response
leaves `errorCount` at 10 — the code clamps with `Math.min(prev + 1, 10)`
instead of incrementing, so "increments the feed's errorCount" is false
at this input. -/
theorem C6_errorCount_not_incremented_at_cap :
    ∃ out, performFetch sampleEnv (some feedAtCap) ⟨500, none, none, ""⟩ 0 0 []
        = some out ∧ out.1.errorCount ≠ feedAtCap.errorCount + 1 := by
  refine ⟨_, rfl, ?_⟩
  decide

/-- C6 (amended): on a non-2xx, non-304 response the worker sets
`errorCount` to the clamped increment `min(errorCount + 1, 10)` (a true
increment whenever `errorCount < 10`), sets `backoffUntil` to a strictly
future instant computed by the backoff policy, updates `lastFetched`,
leaves the item store untouched, and returns a normal result carrying
the failure status instead of throwing. -/
theorem C6_non2xx_backoff (env : Env) (feed : Feed) (res : HttpResponse)
    (now : Int) (jitter : Nat) (store : Store)
    (hok : res.ok = false) (h304 : res.status ≠ 304) :
    ∃ b : Int,
      performFetch env (some feed) res now jitter store =
        some ({ feed with
                  lastFetched := some now
                  errorCount := min (feed.errorCount + 1) 10
                  backoffUntil := some b },
              store, ⟨res.status, 0, 0⟩) ∧
      now < b ∧
      b = now + (backoffTotalMs (feed.errorCount + 1) jitter : Int) := by
  refine ⟨now + (backoffTotalMs (feed.errorCount + 1) jitter : Int), ?_, ?_, rfl⟩
  · simp only [performFetch]
    rw [if_neg h304, if_pos (by simp [hok])]
    rfl
  · have hpos : 0 < backoffTotalMs (feed.errorCount + 1) jitter := by
      unfold backoffTotalMs backoffPreJitterMs capMs
      have h1 : 0 < 2 ^ min (feed.errorCount + 1) 10 * 60000 := by positivity
      omega
    omega

/-- C6, witness: the amended theorem at a concrete feed with
`errorCount = 3` receiving a 503. -/
theorem C6_non2xx_backoff_witness :
    ∃ b : Int,
      performFetch sampleEnv (some feedFresh) ⟨503, none, none, ""⟩ 100 5 [] =
        some ({ feedFresh with
                  lastFetched := some 100
                  errorCount := min (feedFresh.errorCount + 1) 10
                  backoffUntil := some b },
              [], ⟨503, 0, 0⟩) ∧
      100 < b ∧
      b = 100 + (backoffTotalMs (feedFresh.errorCount + 1) 5 : Int) :=
  C6_non2xx_backoff sampleEnv feedFresh ⟨503, none, none, ""⟩ 100 5 []
    (by decide) (by decide)

/-! ## Claim C7: the scheduler tick -/

/-- C7, counterexample: the tick's `findMany({ take: 1000 })` does not
enumerate all feeds. With 1001 feeds, all of them due and none backing
off, the 1001st feed satisfies the enqueue condition but no job for it
is produced, so "a feed is enqueued if and only if ..." fails. -/
theorem C7_all_feeds_not_enumerated :
    mkFeedN 1000 ∈ feeds1001 ∧
    shouldEnqueue 0 (mkFeedN 1000) = true ∧
    (mkFeedN 1000).id ∉ schedulerTick 0 feeds1001 := by
  refine ⟨List.mem_map.mpr ⟨1000, by simp, rfl⟩, rfl, ?_⟩
  intro hmem
  unfold schedulerTick at hmem
  rw [show feeds1001.take 1000 = (List.range 1000).map mkFeedN by
        unfold feeds1001
        rw [← List.map_take, List.take_range]
        norm_num] at hmem
  rw [List.filter_eq_self.mpr (fun f hf => by
        rcases List.mem_map.mp hf with ⟨i, _, rfl⟩
        rfl)] at hmem
  rw [List.map_map] at hmem
  rcases List.mem_map.mp hmem with ⟨i, hi, hid⟩
  have hdata : List.replicate i 'a' = List.replicate 1000 'a' :=
    congrArg String.data hid
  have hlen := congrArg List.length hdata
  rw [List.length_replicate, List.length_replicate] at hlen
  rw [List.mem_range] at hi
  omega

/-- C7 (amended): on a tick over the first 1000 feed rows the query
returns (all feeds whenever there are at most 1000), a feed's id is
enqueued iff its backoff window is not in the future and it is due
(never fetched, or `now - lastFetched ≥ max(5, fetchInterval ?? 30)`
minutes); a feed with a future backoffUntil is never enqueued; with
distinct feed ids, at most one job per feed is produced. -/
theorem C7_tick_enqueues_iff (now : Int) (feeds : List Feed)
    (hnd : (feeds.map Feed.id).Nodup) :
    (∀ f ∈ feeds.take 1000,
        (f.id ∈ schedulerTick now feeds ↔ shouldEnqueue now f = true)) ∧
    (∀ f ∈ feeds, backoffActive now f = true → f.id ∉ schedulerTick now feeds) ∧
    (schedulerTick now feeds).Nodup := by
  have hinj := List.inj_on_of_nodup_map hnd
  have hsubl : ((feeds.take 1000).filter (shouldEnqueue now)).Sublist feeds :=
    (List.filter_sublist _).trans (List.take_sublist _ _)
  refine ⟨?_, ?_, ?_⟩
  · intro f hf
    constructor
    · intro hid
      rcases List.mem_map.mp hid with ⟨g, hg, hgid⟩
      have heq : g = f := hinj (hsubl.subset hg)
        ((List.take_sublist _ _).subset hf) hgid
      rw [← heq]
      exact (List.mem_filter.mp hg).2
    · intro hok
      exact List.mem_map.mpr ⟨f, List.mem_filter.mpr ⟨hf, hok⟩, rfl⟩
  · intro f hf hb hid
    rcases List.mem_map.mp hid with ⟨g, hg, hgid⟩
    have heq : g = f := hinj (hsubl.subset hg) hf hgid
    have hok := (List.mem_filter.mp hg).2
    rw [heq] at hok
    unfold shouldEnqueue at hok
    rw [hb] at hok
    simp at hok
  · exact hnd.sublist (hsubl.map Feed.id)

/-- C7, witness: the amended theorem over two concrete feeds — one due
and never fetched, one with a future backoff window. -/
theorem C7_tick_enqueues_iff_witness :
    ((mkFeedN 1).id ∈ schedulerTick 0 [mkFeedN 1, feedFresh] ↔
      shouldEnqueue 0 (mkFeedN 1) = true) ∧
    feedFresh.id ∉ schedulerTick 0 [mkFeedN 1, feedFresh] ∧
    (schedulerTick 0 [mkFeedN 1, feedFresh]).Nodup :=
  ⟨(C7_tick_enqueues_iff 0 [mkFeedN 1, feedFresh] (by decide)).1 (mkFeedN 1)
      (by decide),
   (C7_tick_enqueues_iff 0 [mkFeedN 1, feedFresh] (by decide)).2.1 feedFresh
      (by decide) (by decide),
   (C7_tick_enqueues_iff 0 [mkFeedN 1, feedFresh] (by decide)).2.2⟩

/-! ## Claim C9: malformed documents -/

/-- C9: a parsed document exposing neither the `rss.channel` nor the
`feed` shape normalizes to an empty entry list, and whenever the
normalizer yields no entries the cycle leaves the store untouched and
reports zero inserts (and zero skips). In the embedding the normalizer
is a total function — `XMLParser` is configured without validation and
degrades instead of raising — so no error can escape to the worker. -/
theorem C9_malformed_degrades :
    (∀ d : ParsedDoc, d.rssChannel = none → d.feed = none →
        (docTitleAndEntries d).2 = []) ∧
    (∀ (env : Env) (fid body : String) (store : Store),
        (docTitleAndEntries (env.xmlParse body)).2 = [] →
        (processAtomOrRss env fid body store).1 = store ∧
        (processAtomOrRss env fid body store).2.1 = 0 ∧
        (processAtomOrRss env fid body store).2.2.1 = 0) := by
  constructor
  · intro d h1 h2
    simp [docTitleAndEntries, h1, h2]
  · intro env fid body store h
    refine ⟨?_, ?_, ?_⟩ <;> simp [processAtomOrRss, h]

/-- C9, witness: the theorem at the shape-free document and at a body
that `sampleEnv` does not recognize as a feed. -/
theorem C9_malformed_degrades_witness :
    (docTitleAndEntries (⟨none, none⟩ : ParsedDoc)).2 = [] ∧
    (processAtomOrRss sampleEnv "f1" "<garbage>" []).1 = [] ∧
    (processAtomOrRss sampleEnv "f1" "<garbage>" []).2.1 = 0 :=
  ⟨C9_malformed_degrades.1 ⟨none, none⟩ rfl rfl,
   (C9_malformed_degrades.2 sampleEnv "f1" "<garbage>" [] rfl).1,
   (C9_malformed_degrades.2 sampleEnv "f1" "<garbage>" [] rfl).2.1⟩

/-! ## Claim C10: the effective guid can be empty -/

/-- C10: code-bug evidence. For an entry with two empty `<link/>` nodes
and no id (an Atom entry shape), link resolution produces the empty
string via `text(linkVal[0])`, `canonicalUrl("")` returns `undefined`
so `urlCanon` stays `""`, and `??` keeps `""` — so `effectiveGuid` is
the empty string, `candidates.filter(Boolean)` is empty, and the entry
is inserted as a row whose guid is `""`, contradicting the invariant
that a guid is never left empty (the hash fallback exists precisely to
prevent this and the code's `filter(Boolean)` shows the intent). -/
theorem C10_empty_guid_inserted :
    (processEntry sampleEnv "feed1" emptyLinksEntry []).1 =
      [{ feedId := "feed1", guid := "", title := "", url := some "",
         contentHtml := none, contentText := none, publishedAt := none }] ∧
    (processEntry sampleEnv "feed1" emptyLinksEntry []).2 = true := by
  constructor <;> rfl

/-! ## Dedup engine: skip/insert structure -/

theorem updateItemMeta_feedId (n : NormEntry) (r : Item) :
    (updateItemMeta n r).feedId = r.feedId := rfl

theorem updateItemMeta_guid (n : NormEntry) (r : Item) :
    (updateItemMeta n r).guid = r.guid := rfl

theorem updateMatching_keys (fid g : String) (n : NormEntry) (store : Store) :
    (updateMatching fid g n store).map itemKey = store.map itemKey := by
  unfold updateMatching
  rw [List.map_map]
  exact List.map_congr_left (fun r _ => by
    by_cases h : (r.feedId = fid && r.guid = g) = true
    · simp [Function.comp, h, itemKey, updateItemMeta]
    · simp [Function.comp, h])

theorem hasKey_updateMatching {store : Store} {fid' g' : String}
    (h : HasKey store fid' g') (fid g : String) (n : NormEntry) :
    HasKey (updateMatching fid g n store) fid' g' := by
  obtain ⟨r, hr, h1, h2⟩ := h
  refine ⟨if r.feedId = fid && r.guid = g then updateItemMeta n r else r,
    List.mem_map_of_mem _ hr, ?_, ?_⟩
  · by_cases hc : (r.feedId = fid && r.guid = g) = true
    · rw [if_pos hc, updateItemMeta_feedId]; exact h1
    · rw [if_neg hc]; exact h1
  · by_cases hc : (r.feedId = fid && r.guid = g) = true
    · rw [if_pos hc, updateItemMeta_guid]; exact h2
    · rw [if_neg hc]; exact h2

theorem findByCandidates_eq {cands : List String} (fid : String) (store : Store)
    (h : ¬ cands.isEmpty) :
    findByCandidates fid cands store =
      store.find? (fun r => r.feedId = fid && cands.contains r.guid) := by
  unfold findByCandidates
  rw [if_neg h]

theorem processEntry_hasKey_mono (env : Env) (fid : String) (raw : RawEntry)
    (store : Store) {fid' g' : String} (h : HasKey store fid' g') :
    HasKey (processEntry env fid raw store).1 fid' g' := by
  simp only [processEntry]
  cases hvc : findByCandidates fid (candidatesOf (normalizeEntry env raw)) store with
  | some ex => exact hasKey_updateMatching h _ _ _
  | none =>
    cases hfu : store.find? (fun r =>
        r.feedId = fid && r.guid = effectiveGuidOf env fid (normalizeEntry env raw)) with
    | some ex2 => exact hasKey_updateMatching h _ _ _
    | none =>
      obtain ⟨r, hr, h1, h2⟩ := h
      exact ⟨r, List.mem_append_left _ hr, h1, h2⟩

theorem processEntry_adds_key (env : Env) (fid : String) (raw : RawEntry)
    (store : Store) :
    ∃ g ∈ identityKeys env fid (normalizeEntry env raw),
      HasKey (processEntry env fid raw store).1 fid g := by
  simp only [processEntry, identityKeys]
  cases hvc : findByCandidates fid (candidatesOf (normalizeEntry env raw)) store with
  | some ex =>
    have hcands : ¬ (candidatesOf (normalizeEntry env raw)).isEmpty := by
      intro he
      unfold findByCandidates at hvc
      rw [if_pos he] at hvc
      cases hvc
    rw [findByCandidates_eq fid store hcands] at hvc
    have hmem := List.mem_of_find?_eq_some hvc
    have hp := List.find?_some hvc
    simp only [Bool.and_eq_true, decide_eq_true_eq] at hp
    refine ⟨ex.guid, List.mem_cons_of_mem _ ?_, ?_⟩
    · simpa using hp.2
    · exact hasKey_updateMatching ⟨ex, hmem, hp.1, rfl⟩ _ _ _
  | none =>
    cases hfu : store.find? (fun r =>
        r.feedId = fid && r.guid = effectiveGuidOf env fid (normalizeEntry env raw)) with
    | some ex2 =>
      have hmem := List.mem_of_find?_eq_some hfu
      have hp := List.find?_some hfu
      simp only [Bool.and_eq_true, decide_eq_true_eq] at hp
      exact ⟨effectiveGuidOf env fid (normalizeEntry env raw),
        List.mem_cons_self _ _,
        hasKey_updateMatching ⟨ex2, hmem, hp.1, hp.2⟩ _ _ _⟩
    | none =>
      refine ⟨effectiveGuidOf env fid (normalizeEntry env raw),
        List.mem_cons_self _ _,
        ⟨newItem fid (effectiveGuidOf env fid (normalizeEntry env raw))
          (normalizeEntry env raw), ?_, rfl, rfl⟩⟩
      exact List.mem_append_right _ (List.mem_singleton_self _)

theorem processEntry_skips_of_hasKey (env : Env) (fid : String) (raw : RawEntry)
    (store : Store)
    (h : ∃ g ∈ identityKeys env fid (normalizeEntry env raw), HasKey store fid g) :
    (processEntry env fid raw store).2 = false := by
  simp only [processEntry]
  cases hvc : findByCandidates fid (candidatesOf (normalizeEntry env raw)) store with
  | some ex => rfl
  | none =>
    obtain ⟨g, hgmem, r, hr, hrf, hrg⟩ := h
    rcases List.mem_cons.mp hgmem with hge | hgc
    · cases hfu : store.find? (fun r =>
          r.feedId = fid && r.guid = effectiveGuidOf env fid (normalizeEntry env raw)) with
      | some ex2 => rfl
      | none =>
        exfalso
        have hnone := List.find?_eq_none.mp hfu r hr
        apply hnone
        simp only [Bool.and_eq_true, decide_eq_true_eq]
        exact ⟨hrf, by rw [hrg, hge]⟩
    · exfalso
      have hcands : ¬ (candidatesOf (normalizeEntry env raw)).isEmpty := by
        intro he
        rw [List.isEmpty_iff] at he
        rw [he] at hgc
        cases hgc
      rw [findByCandidates_eq fid store hcands] at hvc
      have hnone := List.find?_eq_none.mp hvc r hr
      apply hnone
      simp only [Bool.and_eq_true, decide_eq_true_eq]
      exact ⟨hrf, by simpa [hrg] using hgc⟩

theorem processEntry_skip_keys (env : Env) (fid : String) (raw : RawEntry)
    (store : Store) (h : (processEntry env fid raw store).2 = false) :
    (processEntry env fid raw store).1.map itemKey = store.map itemKey := by
  simp only [processEntry] at h ⊢
  cases hvc : findByCandidates fid (candidatesOf (normalizeEntry env raw)) store with
  | some ex => exact updateMatching_keys _ _ _ _
  | none =>
    rw [hvc] at h
    cases hfu : store.find? (fun r =>
        r.feedId = fid && r.guid = effectiveGuidOf env fid (normalizeEntry env raw)) with
    | some ex2 => exact updateMatching_keys _ _ _ _
    | none =>
      rw [hfu] at h
      cases h

/-! ## The entry loop: counters and the second-pass behaviour -/

theorem processEntries_cons_store (env : Env) (fid : String) (raw : RawEntry)
    (rest : List RawEntry) (store : Store) :
    (processEntries env fid (raw :: rest) store).1 =
      (processEntries env fid rest (processEntry env fid raw store).1).1 := by
  simp only [processEntries]
  by_cases h : (processEntry env fid raw store).2 = true <;> simp [h]

theorem processEntries_count (env : Env) (fid : String) (entries : List RawEntry)
    (store : Store) :
    (processEntries env fid entries store).2.1 +
        (processEntries env fid entries store).2.2 = entries.length := by
  induction entries generalizing store with
  | nil => rfl
  | cons raw rest ih =>
    simp only [processEntries]
    have := ih (processEntry env fid raw store).1
    by_cases h : (processEntry env fid raw store).2 = true <;>
      simp only [h, if_pos, if_neg, Bool.false_eq_true, ite_true, ite_false] <;>
      simp only [List.length_cons] <;> omega

theorem processEntries_hasKey_mono (env : Env) (fid : String)
    (entries : List RawEntry) (store : Store) {fid' g' : String}
    (h : HasKey store fid' g') :
    HasKey (processEntries env fid entries store).1 fid' g' := by
  induction entries generalizing store with
  | nil => exact h
  | cons raw rest ih =>
    rw [processEntries_cons_store]
    exact ih _ (processEntry_hasKey_mono env fid raw store h)

theorem processEntries_establishes (env : Env) (fid : String)
    (entries : List RawEntry) (store : Store) :
    ∀ raw ∈ entries, ∃ g ∈ identityKeys env fid (normalizeEntry env raw),
      HasKey (processEntries env fid entries store).1 fid g := by
  induction entries generalizing store with
  | nil => intro raw h; cases h
  | cons raw0 rest ih =>
    intro raw hraw
    rw [processEntries_cons_store]
    rcases List.mem_cons.mp hraw with heq | hmem
    · subst heq
      obtain ⟨g, hg, hk⟩ := processEntry_adds_key env fid raw store
      exact ⟨g, hg, processEntries_hasKey_mono env fid rest _ hk⟩
    · exact ih (processEntry env fid raw0 store).1 raw hmem

theorem processEntries_second_pass (env : Env) (fid : String)
    (entries : List RawEntry) (store : Store)
    (hpre : ∀ raw ∈ entries, ∃ g ∈ identityKeys env fid (normalizeEntry env raw),
      HasKey store fid g) :
    (processEntries env fid entries store).2.1 = 0 ∧
    (processEntries env fid entries store).1.map itemKey = store.map itemKey := by
  induction entries generalizing store with
  | nil => exact ⟨rfl, rfl⟩
  | cons raw rest ih =>
    have hskip : (processEntry env fid raw store).2 = false :=
      processEntry_skips_of_hasKey env fid raw store (hpre raw (by simp))
    have hkeys : (processEntry env fid raw store).1.map itemKey = store.map itemKey :=
      processEntry_skip_keys env fid raw store hskip
    have hpre' : ∀ raw' ∈ rest,
        ∃ g ∈ identityKeys env fid (normalizeEntry env raw'),
          HasKey (processEntry env fid raw store).1 fid g := by
      intro raw' h'
      obtain ⟨g, hg, hk⟩ := hpre raw' (by simp [h'])
      exact ⟨g, hg, processEntry_hasKey_mono env fid raw store hk⟩
    obtain ⟨hc, hk⟩ := ih (processEntry env fid raw store).1 hpre'
    constructor
    · simp only [processEntries, hskip, Bool.false_eq_true, ite_false]
      exact hc
    · rw [processEntries_cons_store, hk, hkeys]

/-! ## Claim C1 -/

/-- C1: re-processing the same document for the same feed against the
store produced by the first pass inserts zero rows, counts every entry
of the document as skipped, changes no row identity (the multiset of
`(feedId, guid)` keys — hence also the row count — is exactly that of
the first pass, only metadata columns being rewritten), and performs the
same feed-title (feed metadata) update. Holds for every environment,
feed, document body and starting store. -/
theorem C1_reingest_idempotent (env : Env) (fid body : String) (store : Store) :
    (processAtomOrRss env fid body
        (processAtomOrRss env fid body store).1).2.1 = 0 ∧
    (processAtomOrRss env fid body
        (processAtomOrRss env fid body store).1).2.2.1 =
      (docTitleAndEntries (env.xmlParse body)).2.length ∧
    (processAtomOrRss env fid body
        (processAtomOrRss env fid body store).1).1.map itemKey =
      (processAtomOrRss env fid body store).1.map itemKey ∧
    (processAtomOrRss env fid body
        (processAtomOrRss env fid body store).1).2.2.2 =
      (processAtomOrRss env fid body store).2.2.2 := by
  by_cases hlen : (docTitleAndEntries (env.xmlParse body)).2.length = 0
  · refine ⟨?_, ?_, ?_, ?_⟩ <;> simp [processAtomOrRss, hlen]
  · have hP : ∀ s : Store, processAtomOrRss env fid body s =
        ((processEntries env fid (docTitleAndEntries (env.xmlParse body)).2 s).1,
         (processEntries env fid (docTitleAndEntries (env.xmlParse body)).2 s).2.1,
         (processEntries env fid (docTitleAndEntries (env.xmlParse body)).2 s).2.2,
         titleUpdOf (docTitleAndEntries (env.xmlParse body)).1) := by
      intro s
      simp only [processAtomOrRss]
      rw [if_neg hlen]
    have hpre := processEntries_establishes env fid
      (docTitleAndEntries (env.xmlParse body)).2 store
    have hsecond := processEntries_second_pass env fid
      (docTitleAndEntries (env.xmlParse body)).2
      (processEntries env fid (docTitleAndEntries (env.xmlParse body)).2 store).1
      hpre
    have hcount := processEntries_count env fid
      (docTitleAndEntries (env.xmlParse body)).2
      (processEntries env fid (docTitleAndEntries (env.xmlParse body)).2 store).1
    rw [hP store, hP ((processEntries env fid
      (docTitleAndEntries (env.xmlParse body)).2 store).1)]
    refine ⟨hsecond.1, ?_, hsecond.2, rfl⟩
    dsimp only
    omega

/-! ## Claim C8 -/

theorem mem_dedupAux {seen l : List String} {x : String} :
    x ∈ dedupAux seen l ↔ x ∈ l ∧ x ∉ seen := by
  induction l generalizing seen with
  | nil => simp [dedupAux]
  | cons y ys ih =>
    by_cases hy : y ∈ seen
    · rw [dedupAux, if_pos hy, ih]
      constructor
      · rintro ⟨h1, h2⟩
        exact ⟨List.mem_cons_of_mem _ h1, h2⟩
      · rintro ⟨h1, h2⟩
        rcases List.mem_cons.mp h1 with rfl | h1
        · exact absurd hy h2
        · exact ⟨h1, h2⟩
    · rw [dedupAux, if_neg hy]
      by_cases hx : x = y
      · subst hx
        simp [hy]
      · constructor
        · intro hmem
          rcases List.mem_cons.mp hmem with h | h
          · exact absurd h hx
          · have := ih.mp h
            exact ⟨List.mem_cons_of_mem _ this.1,
              fun hs => this.2 (List.mem_cons_of_mem _ hs)⟩
        · rintro ⟨h1, h2⟩
          rcases List.mem_cons.mp h1 with h | h
          · exact absurd h hx
          · exact List.mem_cons_of_mem _ (ih.mpr ⟨h, by
              simp only [List.mem_cons, not_or]
              exact ⟨hx, h2⟩⟩)

theorem urlCanon_mem_candidates {n : NormEntry} {g : String}
    (h : n.urlCanon = some g) (hne : g ≠ "") : g ∈ candidatesOf n := by
  unfold candidatesOf
  rw [mem_dedupAux]
  refine ⟨List.mem_filter.mpr ⟨?_, by simpa using hne⟩, by simp⟩
  exact List.mem_filterMap.mpr ⟨some g, by simp [← h], rfl⟩

/-- C8, counterexample: the claim names the row whose stored guid equals
the entry's canonicalized link as the one that gets updated, but
`findFirst` returns the first row in table order matching *any*
candidate. With `rowRawGuid` (matching the raw guid `"g1"`) placed
before `rowLinkGuid` (matching the canonical link), the code updates
`rowRawGuid` and leaves `rowLinkGuid` untouched — its title stays
`"B title"` instead of the entry's `"fresh title"`. -/
theorem C8_first_match_bypasses_link_row :
    (normalizeEntry sampleEnv driftEntry).urlCanon = some rowLinkGuid.guid ∧
    (processEntry sampleEnv "f1" driftEntry [rowRawGuid, rowLinkGuid]).1 =
      [{ rowRawGuid with url := some "https://x.com/y", title := "fresh title" },
        rowLinkGuid] ∧
    rowLinkGuid.title ≠ "fresh title" := by
  refine ⟨by decide, by decide, by decide⟩

/-- C8 (amended): for every entry whose canonicalized link equals the
stored (non-empty) guid of some Item of the feed, processing the entry
inserts no row and is counted as skipped, every row keeps its
`(feedId, guid)` identity, and the row that receives the metadata
refresh (url/title/content/publishedAt, guid untouched) is the *first*
row in table order whose guid matches any identity candidate of the
entry — which is the canonical-link row itself whenever it is the only
match. -/
theorem C8_link_match_updates (env : Env) (fid : String) (raw : RawEntry)
    (store : Store)
    (hmatch : ∃ r ∈ store, r.feedId = fid ∧
        (normalizeEntry env raw).urlCanon = some r.guid ∧ r.guid ≠ "") :
    (processEntry env fid raw store).2 = false ∧
    (processEntry env fid raw store).1.map itemKey = store.map itemKey ∧
    ∃ ex ∈ store, ex.feedId = fid ∧
      ex.guid ∈ candidatesOf (normalizeEntry env raw) ∧
      processEntry env fid raw store =
        (updateMatching fid ex.guid (normalizeEntry env raw) store, false) := by
  obtain ⟨r0, hr0, hrf, hrc, hrne⟩ := hmatch
  have hg : r0.guid ∈ candidatesOf (normalizeEntry env raw) :=
    urlCanon_mem_candidates hrc hrne
  have hcands : ¬ (candidatesOf (normalizeEntry env raw)).isEmpty := by
    intro he
    rw [List.isEmpty_iff] at he
    rw [he] at hg
    cases hg
  have hsome : (store.find? (fun r => r.feedId = fid &&
      (candidatesOf (normalizeEntry env raw)).contains r.guid)).isSome := by
    rw [List.find?_isSome]
    exact ⟨r0, hr0, by simp [hrf, hg]⟩
  cases hvc : store.find? (fun r => r.feedId = fid &&
      (candidatesOf (normalizeEntry env raw)).contains r.guid) with
  | none => rw [hvc] at hsome; cases hsome
  | some ex =>
    have hmem := List.mem_of_find?_eq_some hvc
    have hp := List.find?_some hvc
    simp only [Bool.and_eq_true, decide_eq_true_eq] at hp
    have hstep : processEntry env fid raw store =
        (updateMatching fid ex.guid (normalizeEntry env raw) store, false) := by
      simp only [processEntry]
      rw [findByCandidates_eq fid store hcands, hvc]
    refine ⟨by rw [hstep], by rw [hstep]; exact updateMatching_keys _ _ _ _,
      ex, hmem, hp.1, by simpa using hp.2, hstep⟩

/-- C8, witness: the amended theorem where the canonical-link row is the
only stored row, so it is the row updated. -/
theorem C8_link_match_updates_witness :
    (processEntry sampleEnv "f1" driftEntry [rowLinkGuid]).2 = false ∧
    (processEntry sampleEnv "f1" driftEntry [rowLinkGuid]).1.map itemKey =
      [rowLinkGuid].map itemKey ∧
    ∃ ex ∈ [rowLinkGuid], ex.feedId = "f1" ∧
      ex.guid ∈ candidatesOf (normalizeEntry sampleEnv driftEntry) ∧
      processEntry sampleEnv "f1" driftEntry [rowLinkGuid] =
        (updateMatching "f1" ex.guid (normalizeEntry sampleEnv driftEntry)
          [rowLinkGuid], false) :=
  C8_link_match_updates sampleEnv "f1" driftEntry [rowLinkGuid]
    ⟨rowLinkGuid, by simp, by decide, by decide, by decide⟩

end Readerly
